import Mathlib

/-!
Verification development for the health-insurance provider aggregation
pipeline (scripts/combine.py, scripts/a_group.py, scripts/meqa_sigorta.py).

The Python code is shallowly embedded: strings are `List Char` / `String`,
Python floats are modelled as exact decimal numbers (`Dec`, a signed
mantissa together with a power-of-ten scale), fallible parsing returns
`Option`.  Python's `str(float)` is modelled by fixed-point decimal
printing of the canonical (trailing-zero-free) mantissa, which agrees with
CPython's shortest-roundtrip repr on the ordinary magnitudes handled by
this pipeline (scientific notation for very small / very large magnitudes
is not modelled).  Unicode case mapping is modelled for the ASCII range
plus the Azerbaijani letters appearing in the sources.
-/

/-- Whitespace as matched by Python's `str.strip` / regex `\s` on the
character repertoire relevant here. -/
def isSpaceCh (c : Char) : Bool :=
  c = ' ' || c = '\t' || c = '\n' || c = '\r' || c = '\x0b' || c = '\x0c'

/-- Drop leading whitespace. -/
def dropLead (l : List Char) : List Char := l.dropWhile isSpaceCh

/-- Drop trailing whitespace. -/
def dropTrail (l : List Char) : List Char := (l.reverse.dropWhile isSpaceCh).reverse

/-- Python `str.strip()` on a character list. -/
def stripL (l : List Char) : List Char := dropTrail (dropLead l)

/-- Python `str.strip()` on a `String`. -/
def stripS (s : String) : String := String.mk (stripL s.data)

/-- The ten ASCII digit characters. -/
def digitsList : List Char := ['0', '1', '2', '3', '4', '5', '6', '7', '8', '9']

/-- ASCII decimal digit test (regex `\d`, and the digits accepted by
`float()` / `int()` literals). -/
def isDigitCh (c : Char) : Bool := digitsList.contains c

/-- Numeric value of a decimal digit character. -/
def digitVal (c : Char) : Nat := c.toNat - '0'.toNat

/-- The character for a decimal digit. -/
def digChar (n : Nat) : Char := Char.ofNat ('0'.toNat + n)

/-- Decimal digits of a natural number, most significant first
(fuelled accumulator form; the fuel bounds the number of digits). -/
def natDigsGo : Nat → Nat → List Char → List Char
  | 0, n, acc => digChar n :: acc
  | fuel + 1, n, acc =>
    if n < 10 then digChar n :: acc
    else natDigsGo fuel (n / 10) (digChar (n % 10) :: acc)

/-- Decimal digit characters of a natural number, most significant first. -/
def natDigs (n : Nat) : List Char := natDigsGo n n []

/-- Value of a list of decimal digit characters. -/
def digitsVal (l : List Char) : Nat := l.foldl (fun a c => 10 * a + digitVal c) 0

/-- Parse a non-empty all-digit character list to its value. -/
def parseUnsigned (l : List Char) : Option Nat :=
  if l ≠ [] ∧ l.all isDigitCh then some (digitsVal l) else none

/-- Python `int(s)`: strip, optional sign, then decimal digits consuming the
whole remainder (Python's underscore digit grouping is not modelled). -/
def pyIntParse (l : List Char) : Option Int :=
  match stripL l with
  | '-' :: r => (parseUnsigned r).map (fun n => -(n : Int))
  | '+' :: r => (parseUnsigned r).map (fun n => (n : Int))
  | r => (parseUnsigned r).map (fun n => (n : Int))

/-- Exact decimal number `m / 10 ^ e`: the model of a Python float held by
this pipeline (all its floats originate from decimal text). -/
structure Dec where
  m : Int
  e : Nat
deriving DecidableEq

/-- Canonicalize a `Dec` by removing factors of ten shared between the
mantissa and the scale, the form whose printing matches Python's
shortest repr. -/
def Dec.normGo : Int → Nat → Dec
  | m, 0 => ⟨m, 0⟩
  | m, e + 1 => if m % 10 = 0 then Dec.normGo (m / 10) e else ⟨m, e + 1⟩

/-- Canonicalization entry point. -/
def Dec.norm (d : Dec) : Dec := Dec.normGo d.m d.e

/-- Rational value of a `Dec`. -/
def Dec.val (d : Dec) : ℚ := (d.m : ℚ) / (10 : ℚ) ^ d.e

/-- Canonical form predicate: the scale is zero or the mantissa does not
end in a zero digit. -/
def Dec.isNorm (d : Dec) : Bool := d.e = 0 || d.m % 10 != 0

/-- Python `abs` on the float model. -/
def Dec.absD (d : Dec) : Dec := ⟨|d.m|, d.e⟩

/-- Round an integer ratio `m / t` (with `t > 0`) to the nearest integer,
ties to even: the rounding used by Python's `round`. -/
def roundHalfEven (m t : Int) : Int :=
  let q := Int.fdiv m t
  let r := m - q * t
  if 2 * r < t then q
  else if t < 2 * r then q + 1
  else if q % 2 = 0 then q else q + 1

/-- Python `round(x, 4)` on the float model. -/
def Dec.round4 (d : Dec) : Dec :=
  if d.e ≤ 4 then d
  else Dec.norm ⟨roundHalfEven d.m ((10 : Int) ^ (d.e - 4)), 4⟩

/-- Left-pad a digit list with zeros to the given length. -/
def padZeros (k : Nat) (l : List Char) : List Char :=
  List.replicate (k - l.length) '0' ++ l

/-- Python `str(x)` on the float model: fixed-point decimal text with at
least one fractional digit, e.g. `40.38`, `-7.0`. -/
def pyStrD (d : Dec) : List Char :=
  let sgn : List Char := if d.m < 0 then ['-'] else []
  let a : Nat := d.m.natAbs
  if d.e = 0 then sgn ++ natDigs a ++ ['.', '0']
  else
    let p : Nat := 10 ^ d.e
    sgn ++ natDigs (a / p) ++ ['.'] ++ padZeros d.e (natDigs (a % p))

/-- Split off the longest leading run of digit characters. -/
def spanDigits (l : List Char) : List Char × List Char :=
  (l.takeWhile isDigitCh, l.dropWhile isDigitCh)

/-- Build the parsed decimal value from integer-part digits, fraction
digits and a base-ten exponent, then canonicalize. -/
def mkDec (neg : Bool) (ip fp : List Char) (k : Int) : Dec :=
  Dec.norm
    (let mz : Int :=
      if neg then -(digitsVal (ip ++ fp) : Int) else (digitsVal (ip ++ fp) : Int)
    let ex : Int := k - (fp.length : Int)
    if 0 ≤ ex then ⟨mz * (10 : Int) ^ ex.toNat, 0⟩ else ⟨mz, (-ex).toNat⟩)

/-- The fraction part after the integer digits of a float literal: a `.`
followed by digits, or nothing. -/
def pyAfterDigits : List Char → List Char × List Char
  | '.' :: r => spanDigits r
  | l => ([], l)

/-- Parse the exponent digits (with optional sign) of a float literal. -/
def pyFloatExpPart (neg : Bool) (ip fp r : List Char) : Option Dec :=
  match r with
  | '-' :: r4 => (parseUnsigned r4).map (fun n => mkDec neg ip fp (-(n : Int)))
  | '+' :: r4 => (parseUnsigned r4).map (fun n => mkDec neg ip fp (n : Int))
  | r4 => (parseUnsigned r4).map (fun n => mkDec neg ip fp (n : Int))

/-- Parse the unsigned body of a float literal: digits, an optional
fraction, an optional exponent; the whole remainder must be consumed. -/
def pyFloatBody (neg : Bool) (u : List Char) : Option Dec :=
  let ip := u.takeWhile isDigitCh
  let rest := pyAfterDigits (u.dropWhile isDigitCh)
  if ip = [] ∧ rest.1 = [] then none
  else
    match rest.2 with
    | [] => some (mkDec neg ip rest.1 0)
    | 'e' :: r3 => pyFloatExpPart neg ip rest.1 r3
    | 'E' :: r3 => pyFloatExpPart neg ip rest.1 r3
    | _ => none

/-- Python `float(s)`: strip, optional sign, then a decimal literal with
optional fraction and exponent (`inf` / `nan` / underscore grouping are
not modelled and yield `none`). -/
def pyFloatParse (l : List Char) : Option Dec :=
  match stripL l with
  | '-' :: u => pyFloatBody true u
  | '+' :: u => pyFloatBody false u
  | u => pyFloatBody false u

/-- Model of `float(s) if s else None` under a surrounding
`try/except`: `none` means the exception path was taken, `some none`
means the value was Python `None`. -/
def parseIfTruthy (s : List Char) : Option (Option Dec) :=
  if s = [] then some none
  else
    match pyFloatParse s with
    | some d => some (some d)
    | none => none

/-- Uppercase map underlying Python `str.upper`, for ASCII plus the
Azerbaijani letters appearing in the sources (other characters are
fixed). -/
def upPairs : List (Char × Char) :=
  [('a', 'A'), ('b', 'B'), ('c', 'C'), ('d', 'D'), ('e', 'E'), ('f', 'F'),
   ('g', 'G'), ('h', 'H'), ('i', 'I'), ('j', 'J'), ('k', 'K'), ('l', 'L'),
   ('m', 'M'), ('n', 'N'), ('o', 'O'), ('p', 'P'), ('q', 'Q'), ('r', 'R'),
   ('s', 'S'), ('t', 'T'), ('u', 'U'), ('v', 'V'), ('w', 'W'), ('x', 'X'),
   ('y', 'Y'), ('z', 'Z'),
   ('ə', 'Ə'), ('ü', 'Ü'), ('ö', 'Ö'), ('ş', 'Ş'), ('ç', 'Ç'), ('ğ', 'Ğ'),
   ('ı', 'I')]

/-- Python `str.upper` per character. -/
def upChar (c : Char) : Char := (List.lookup c upPairs).getD c

/-- Python `str.upper` on a character list. -/
def upS (l : List Char) : List Char := l.map upChar

/-- Lowercase map underlying Python `str.lower`; `İ` lowers to the
two-character sequence ASCII `i` + combining dot above, exactly as in
CPython. -/
def lowPairs : List (Char × List Char) :=
  [('A', ['a']), ('B', ['b']), ('C', ['c']), ('D', ['d']), ('E', ['e']),
   ('F', ['f']), ('G', ['g']), ('H', ['h']), ('I', ['i']), ('J', ['j']),
   ('K', ['k']), ('L', ['l']), ('M', ['m']), ('N', ['n']), ('O', ['o']),
   ('P', ['p']), ('Q', ['q']), ('R', ['r']), ('S', ['s']), ('T', ['t']),
   ('U', ['u']), ('V', ['v']), ('W', ['w']), ('X', ['x']), ('Y', ['y']),
   ('Z', ['z']),
   ('Ə', ['ə']), ('Ü', ['ü']), ('Ö', ['ö']), ('Ş', ['ş']), ('Ç', ['ç']),
   ('Ğ', ['ğ']), ('İ', ['i', '̇'])]

/-- Python `str.lower` per character. -/
def lowChar (c : Char) : List Char := (List.lookup c lowPairs).getD [c]

/-- Python `str.lower` on a character list. -/
def lowS (l : List Char) : List Char := l.flatMap lowChar

/-- Does `l` start with the pattern `p`? -/
def leadsWith : List Char → List Char → Bool
  | [], _ => true
  | _ :: _, [] => false
  | a :: as, b :: bs => a == b && leadsWith as bs

/-- Python's `needle in hay` substring test. -/
def hasSub : List Char → List Char → Bool
  | [], needle => needle.isEmpty
  | c :: t, needle => leadsWith needle (c :: t) || hasSub t needle

/-- Type normalization table of `combine.py` (`TYPE_MAPPING`), in source
order. -/
def TYPE_MAPPING : List (String × String) :=
  [("PHARMACY", "PHARMACY"), ("CLINIC", "CLINIC"), ("DENTAL", "DENTAL"),
   ("OPTICS", "OPTICS"),
   ("ONLINE_PHARMACY", "PHARMACY"), ("MEDICAL_SERVICE", "CLINIC"),
   ("DENTAL_CLINIC", "DENTAL"), ("OPTIC", "OPTICS"),
   ("pharmacy", "PHARMACY"), ("clinic", "CLINIC"), ("dental", "DENTAL"),
   ("optics", "OPTICS")]

/-- Embedding of `combine.normalize_type`. -/
def normalize_type (raw : String) : String :=
  if raw = "" then "UNKNOWN"
  else
    let t : String := String.mk (upS (stripL raw.data))
    match List.lookup t TYPE_MAPPING with
    | some v => v
    | none =>
      match List.lookup (String.mk (lowS t.data)) TYPE_MAPPING with
      | some v => v
      | none => "OTHER"

/-- Baku district list of `combine.py` (`BAKU_DISTRICTS`). -/
def BAKU_DISTRICTS : List String :=
  ["Binəqədi", "Xətai", "Xəzər", "Nərimanov", "Nəsimi", "Nizami",
   "Qaradağ", "Sabunçu", "Səbail", "Suraxanı", "Yasamal", "Pirallahı",
   "Bakı", "Baku", "Baki"]

/-- Region gazetteer of `combine.py` (`REGIONS`), in source (insertion)
order. -/
def REGIONS : List (String × String) :=
  [("Sumqayıt", "Sumqayıt"), ("Gəncə", "Gəncə"), ("Mingəçevir", "Mingəçevir"),
   ("Naxçıvan", "Naxçıvan"), ("Lənkəran", "Lənkəran"), ("Şəki", "Şəki"),
   ("Şirvan", "Şirvan"), ("Yevlax", "Yevlax"), ("Xaçmaz", "Xaçmaz"),
   ("Quba", "Quba"), ("Qusar", "Qusar"), ("Zaqatala", "Zaqatala"),
   ("Masallı", "Masallı"), ("Biləsuvar", "Biləsuvar"), ("İmişli", "İmişli"),
   ("Salyan", "Salyan"), ("Qəbələ", "Qəbələ"), ("Şamaxı", "Şamaxı"),
   ("Göyçay", "Göyçay"), ("Ağdaş", "Ağdaş"), ("Bərdə", "Bərdə"),
   ("Tovuz", "Tovuz"), ("Qazax", "Qazax"), ("Xırdalan", "Absheron"),
   ("Abşeron", "Absheron")]

/-- First gazetteer entry whose key occurs (upper-cased) in the
upper-cased address. -/
def regFind : List (String × String) → List Char → Option String
  | [], _ => none
  | (k, v) :: rest, au => if hasSub au (upS k.data) then some v else regFind rest au

/-- Characters matched by the class `[A-Za-zƏəÜüÖöŞşÇçIıĞğ]` of the
`([A-Za-zƏəÜüÖöŞşÇçIıĞğ]+)\s+şəh` pattern of `combine.detect_city` under
`re.IGNORECASE`: the literal members plus their CPython case variants.
CPython's `sre` matches a character against an ignore-case class by its
simple lowercase mapping (plus the fixed `i/ı` and `s/ſ` equivalences),
which adds exactly three characters to this class: `İ` (U+0130, simple
lowercase `i`), `ſ` (U+017F, equivalent to `s`), and the Kelvin sign
U+212A (simple lowercase `k`) — the full set was obtained by matching
every code point against the class in CPython. -/
def classList : List Char :=
  ['A', 'B', 'C', 'D', 'E', 'F', 'G', 'H', 'I', 'J', 'K', 'L', 'M',
   'N', 'O', 'P', 'Q', 'R', 'S', 'T', 'U', 'V', 'W', 'X', 'Y', 'Z',
   'a', 'b', 'c', 'd', 'e', 'f', 'g', 'h', 'i', 'j', 'k', 'l', 'm',
   'n', 'o', 'p', 'q', 'r', 's', 't', 'u', 'v', 'w', 'x', 'y', 'z',
   'Ə', 'ə', 'Ü', 'ü', 'Ö', 'ö', 'Ş', 'ş', 'Ç', 'ç', 'I', 'ı', 'Ğ', 'ğ',
   'İ', 'ſ', 'K']

/-- Character class membership for that pattern. -/
def inClassCh (c : Char) : Bool := classList.contains c

/-- Case-insensitive character comparison used for the literal `şəh` under
`re.IGNORECASE`. -/
def eqCaseless (a b : Char) : Bool := a == b || upChar a == upChar b

/-- Attempt the regex `([class]+)\s+şəh` anchored at the head of `l`; on
success return the captured group (the maximal class run).  Greedy
matching with backtracking is deterministic here: the class contains no
whitespace, so if `\s+` fails after the maximal class run it also fails
after every shorter one, and `ş`/`Ş` is not whitespace, so if the literal
fails after the maximal whitespace run it also fails after every shorter
one.  The literal comparison is case-insensitive (`re.IGNORECASE`). -/
def shehMatchAt (l : List Char) : Option (List Char) :=
  let run := l.takeWhile inClassCh
  if run = [] then none
  else
    let r1 := l.drop run.length
    let ws := r1.takeWhile isSpaceCh
    if ws = [] then none
    else
      match r1.drop ws.length with
      | c1 :: c2 :: c3 :: _ =>
        if eqCaseless c1 'ş' && eqCaseless c2 'ə' && eqCaseless c3 'h' then some run
        else none
      | _ => none

/-- Leftmost search for the `([class]+)\s+şəh` pattern
(`re.search` semantics). -/
def shehSearch : List Char → Option (List Char)
  | [] => none
  | c :: t =>
    match shehMatchAt (c :: t) with
    | some r => some r
    | none => shehSearch t

/-- Embedding of `combine.detect_city`. -/
def detect_city (address : String) (city_hint : String) : String :=
  if city_hint ≠ "" ∧ stripS city_hint ≠ "" then stripS city_hint
  else if address = "" then "Unknown"
  else
    let au := upS address.data
    if BAKU_DISTRICTS.any (fun d => hasSub au (upS d.data)) then "Bakı"
    else
      match regFind REGIONS au with
      | some v => v
      | none =>
        if hasSub au "ŞƏH".data || hasSub au "ŞƏHƏR".data then
          match shehSearch address.data with
          | some w =>
            let city := String.mk (stripL w)
            if ¬ String.mk (upS city.data) ∈ ["BAKI", "BAKI"] then city else "Bakı"
          | none => "Bakı"
        else "Bakı"

/-- Embedding of `combine.detect_region_category`. -/
def detect_region_category (city : String) : String :=
  if city ∈ ["Bakı", "Baku", "Baki", "Absheron", "Xırdalan"] then "Bakı"
  else "Region"

/-- Embedding of `combine.clean_phone`. -/
def clean_phone (phone : String) : String :=
  if phone = "" then ""
  else String.mk (stripL ((phone.data.takeWhile (fun c => c != ';')).takeWhile (fun c => c != '/')))

/-- Replace each maximal whitespace run by a single space
(`re.sub(r'\s+', ' ', s)`). -/
def collapseWs : List Char → List Char
  | [] => []
  | [c] => [if isSpaceCh c then ' ' else c]
  | c :: d :: rest =>
    if isSpaceCh c && isSpaceCh d then collapseWs (d :: rest)
    else (if isSpaceCh c then ' ' else c) :: collapseWs (d :: rest)

/-- Embedding of `combine.clean_name`. -/
def clean_name (name : String) : String :=
  if name = "" then "" else String.mk (stripL (collapseWs name.data))

/-- Embedding of `combine.parse_coordinates`.  The first bounds test keeps
the source's vacuous conjunct `44.0 <= 52.0` verbatim (the source compares
the constants, not the longitude). -/
def parse_coordinates (lat lon : String) : Option Dec × Option Dec :=
  match parseIfTruthy lat.data, parseIfTruthy lon.data with
  | some (some la), some (some lo) =>
    if ¬ (38 ≤ la.val ∧ la.val ≤ 42 ∧ (44 : ℚ) ≤ 52) then
      if 38 ≤ lo.val ∧ lo.val ≤ 42 ∧ 44 ≤ la.val ∧ la.val ≤ 52 then (some lo, some la)
      else (some la, some lo)
    else (some la, some lo)
  | some none, some _ => (none, none)
  | some (some _), some none => (none, none)
  | _, _ => (none, none)

/-- Canonical combined provider record (the dictionary built by
`combine.load_csv`). -/
structure Rec where
  name : String
  type : String
  address : String
  phone : String
  latitude : Option Dec
  longitude : Option Dec
  city : String
  region_category : String
  source : String
deriving DecidableEq

/-- Raw CSV row after the per-source field mapping of `combine.load_csv`
(`city` is the city-hint column, empty for sources without one). -/
structure RawRow where
  name : String
  type : String
  address : String
  phone : String
  latitude : String
  longitude : String
  city : String
deriving DecidableEq

/-- Body of the per-row loop of `combine.load_csv`: clean, normalize and
validate one row, keeping it only when the cleaned name is non-empty. -/
def processRow (source : String) (row : RawRow) : Option Rec :=
  let name := clean_name row.name
  let phone := clean_phone row.phone
  let provider_type := normalize_type row.type
  let coords := parse_coordinates row.latitude row.longitude
  let city := detect_city row.address row.city
  let region_category := detect_region_category city
  if name ≠ "" then
    some { name := name, type := provider_type,
           address := if row.address ≠ "" then stripS row.address else "",
           phone := phone, latitude := coords.1, longitude := coords.2,
           city := city, region_category := region_category, source := source }
  else none

/-- Embedding of the record-producing part of `combine.load_csv`. -/
def load_csv (source : String) (rows : List RawRow) : List Rec :=
  rows.filterMap (processRow source)

/-- Coordinate component of the deduplication key:
`round(lat, 4) if lat else None`. -/
def latKeyOf : Option Dec → Option Dec
  | none => none
  | some d => if d.m = 0 then none else some (Dec.round4 d)

/-- Deduplication key of `combine.deduplicate_records`:
lower-cased stripped name plus rounded coordinates. -/
def dedupKey (r : Rec) : String × Option Dec × Option Dec :=
  (String.mk (stripL (lowS r.name.data)), latKeyOf r.latitude, latKeyOf r.longitude)

/-- Loop of `combine.deduplicate_records` with its `seen` set made
explicit. -/
def dedupGo (seen : List (String × Option Dec × Option Dec)) :
    List Rec → List Rec × Nat
  | [] => ([], 0)
  | r :: rest =>
    let k := dedupKey r
    if k ∈ seen then
      let p := dedupGo seen rest
      (p.1, p.2 + 1)
    else
      let p := dedupGo (k :: seen) rest
      (r :: p.1, p.2)

/-- Embedding of `combine.deduplicate_records`. -/
def deduplicate_records (records : List Rec) : List Rec × Nat :=
  dedupGo [] records

/-- Embedding of `a_group.normalize_coordinates`: parse both values, then
swap when the integer made of the first two characters of
`str(abs(x))` exceeds 42; any exception (unparsable value, or `int()`
applied to a prefix containing the decimal point) yields `("", "")`. -/
def normalize_coordinates (location_x location_y : String) : String × String :=
  match parseIfTruthy location_x.data, parseIfTruthy location_y.data with
  | some (some x), some (some y) =>
    match pyIntParse ((pyStrD x.absD).take 2) with
    | some xh =>
      if 42 < xh then (String.mk (pyStrD y), String.mk (pyStrD x))
      else (String.mk (pyStrD x), String.mk (pyStrD y))
    | none => ("", "")
  | some none, some _ => ("", "")
  | some (some _), some none => ("", "")
  | _, _ => ("", "")

/-- One parsed object of the `medPoints` array literal in
`meqa_sigorta.py` (all fields as raw strings, missing fields empty). -/
structure MedRec where
  title : String
  city : String
  lat : String
  lng : String
  address : String
  phone : String
  description : String
  whatsapp : String
  single_phone_number : String
deriving DecidableEq

/-- Non-overlapping matches of the object pattern `\x7b([^\x7d]+)\x7d`
over the array body (`re.finditer` semantics), fuelled by the input
length. -/
def findObjsGo : Nat → List Char → List (List Char)
  | 0, _ => []
  | _ + 1, [] => []
  | fuel + 1, c :: rest =>
    if c = '\x7b' then
      let run := rest.takeWhile (fun d => d != '\x7d')
      let rem := rest.drop run.length
      match rem with
      | [] => []
      | _ :: tail =>
        if run = [] then findObjsGo fuel rest
        else run :: findObjsGo fuel tail
    else findObjsGo fuel rest

/-- Non-overlapping brace-delimited object bodies of the array literal. -/
def findObjs (l : List Char) : List (List Char) := findObjsGo l.length l

/-- Search the pattern `key\s*"([^"]*)"` (the `key` string includes the
trailing colon) and return the capture of the leftmost match. -/
def strFieldGo : Nat → List Char → List Char → Option (List Char)
  | 0, _, _ => none
  | fuel + 1, l, key =>
    let here : Option (List Char) :=
      if leadsWith key l then
        let r1 := l.drop key.length
        let r2 := r1.drop (r1.takeWhile isSpaceCh).length
        match r2 with
        | '"' :: r3 =>
          let cap := r3.takeWhile (fun c => c != '"')
          match r3.drop cap.length with
          | '"' :: _ => some cap
          | _ => none
        | _ => none
      else none
    match here with
    | some v => some v
    | none =>
      match l with
      | [] => none
      | _ :: t => strFieldGo fuel t key

/-- Search the pattern `key\s*(\d+)` and return the capture of the
leftmost match. -/
def digFieldGo : Nat → List Char → List Char → Option (List Char)
  | 0, _, _ => none
  | fuel + 1, l, key =>
    let here : Option (List Char) :=
      if leadsWith key l then
        let r1 := l.drop key.length
        let r2 := r1.drop (r1.takeWhile isSpaceCh).length
        let cap := r2.takeWhile isDigitCh
        if cap = [] then none else some cap
      else none
    match here with
    | some v => some v
    | none =>
      match l with
      | [] => none
      | _ :: t => digFieldGo fuel t key

/-- Field value for a string-valued field of one object, defaulting to
the empty string when the pattern does not match. -/
def getStrField (key : String) (obj : List Char) : String :=
  match strFieldGo (obj.length + 1) obj key.data with
  | some v => String.mk v
  | none => ""

/-- Field value for the digit-valued `city` field of one object. -/
def getDigField (key : String) (obj : List Char) : String :=
  match digFieldGo (obj.length + 1) obj key.data with
  | some v => String.mk v
  | none => ""

/-- Parse one brace-delimited object body into a `MedRec` by the field
patterns of `meqa_sigorta.extract_med_points`. -/
def objToMedRec (obj : List Char) : MedRec :=
  { title := getStrField "title:" obj,
    city := getDigField "city:" obj,
    lat := getStrField "lat:" obj,
    lng := getStrField "lng:" obj,
    address := getStrField "address:" obj,
    phone := getStrField "phone:" obj,
    description := getStrField "description:" obj,
    whatsapp := getStrField "whatsapp:" obj,
    single_phone_number := getStrField "single_phone_number:" obj }

/-- Embedding of the object-parsing loop of
`meqa_sigorta.extract_med_points` (lines 85–119), taking the body of the
`medPoints` array literal as input (the surrounding literal-locating
regex is retrieval plumbing and is not modelled): each object is parsed
by the field patterns and kept only when its `title` is non-empty. -/
def extract_med_points (array_content : List Char) : List MedRec :=
  ((findObjs array_content).map objToMedRec).filter (fun r => r.title ≠ "")

/-- Does a CSV field need quoting under `QUOTE_MINIMAL` (it contains the
delimiter, the quote character, or a line-terminator character)? -/
def needsQuote (s : List Char) : Bool :=
  s.any (fun c => c == ',' || c == '"' || c == '\r' || c == '\n')

/-- Double every quote character (CSV quote escaping). -/
def escQuotes : List Char → List Char
  | [] => []
  | '"' :: t => '"' :: '"' :: escQuotes t
  | c :: t => c :: escQuotes t

/-- Serialize one CSV field (`csv.writer`, `QUOTE_MINIMAL`). -/
def encodeCell (s : List Char) : List Char :=
  if needsQuote s then '"' :: (escQuotes s ++ ['"']) else s

/-- Join serialized fields with the comma delimiter. -/
def joinComma : List (List Char) → List Char
  | [] => []
  | [c] => c
  | c :: d :: rest => c ++ ',' :: joinComma (d :: rest)

/-- Serialize one CSV row followed by the `\r\n` terminator
(`csv.writer.writerow` with `newline=''`). -/
def encodeRow (r : List (List Char)) : List Char :=
  joinComma (r.map encodeCell) ++ ['\r', '\n']

/-- Serialize a sequence of rows (`csv.writer.writerows`). -/
def encodeRows (rows : List (List (List Char))) : List Char :=
  (rows.map encodeRow).flatten

/-- Read the interior of a quoted CSV field, unescaping doubled quotes;
returns the field and the remaining input after the closing quote. -/
def parseQuotGo : Nat → List Char → List Char → Option (List Char × List Char)
  | 0, _, _ => none
  | fuel + 1, acc, l =>
    match l with
    | [] => none
    | c :: t =>
      if c = '"' then
        match t with
        | '"' :: t2 => parseQuotGo fuel (acc ++ ['"']) t2
        | _ => some (acc, t)
      else parseQuotGo fuel (acc ++ [c]) t

/-- Read one CSV field (quoted or bare). -/
def parseCell (l : List Char) : Option (List Char × List Char) :=
  match l with
  | '"' :: t => parseQuotGo (t.length + 1) [] t
  | _ =>
    let cap := l.takeWhile (fun c => !(c == ',' || c == '\r' || c == '\n'))
    some (cap, l.drop cap.length)

/-- Read one CSV row up to and including its line terminator (or the end
of input). -/
def parseRowGo : Nat → List Char → Option (List (List Char) × List Char)
  | 0, _ => none
  | fuel + 1, l =>
    match parseCell l with
    | none => none
    | some (cell, rest) =>
      match rest with
      | ',' :: t => (parseRowGo fuel t).map (fun p => (cell :: p.1, p.2))
      | '\r' :: '\n' :: t => some ([cell], t)
      | '\n' :: t => some ([cell], t)
      | [] => some ([cell], [])
      | _ => none

/-- Read all CSV rows of the input. -/
def parseRowsGo : Nat → List Char → Option (List (List (List Char)))
  | _, [] => some []
  | 0, _ => none
  | fuel + 1, l =>
    match parseRowGo (l.length + 1) l with
    | none => none
    | some (row, rest) => (parseRowsGo fuel rest).map (row :: ·)

/-- CSV text to rows of fields (`csv.reader` with `newline=''`). -/
def csvDecode (l : List Char) : Option (List (List (List Char))) :=
  parseRowsGo (l.length + 1) l

/-- Serialization of an optional coordinate: `csv.DictWriter` writes the
empty string for `None` and `str(x)` for a float. -/
def coordCell : Option Dec → List Char
  | none => []
  | some d => pyStrD d

/-- Header row of the combined sink file (`fieldnames` in
`combine.save_combined_csv`). -/
def headerRow : List (List Char) :=
  ["name".data, "type".data, "address".data, "phone".data, "latitude".data,
   "longitude".data, "city".data, "region_category".data, "source".data]

/-- One record as its sink-file row, in the fixed column order. -/
def recToRow (r : Rec) : List (List Char) :=
  [r.name.data, r.type.data, r.address.data, r.phone.data,
   coordCell r.latitude, coordCell r.longitude,
   r.city.data, r.region_category.data, r.source.data]

/-- Embedding of `combine.save_combined_csv`: the text written to the
sink file (header row, then one row per record). -/
def save_combined_csv (records : List Rec) : List Char :=
  encodeRows (headerRow :: records.map recToRow)

/-- Parse a coordinate cell of the sink file: empty means absent,
otherwise the decimal text is parsed as a float. -/
def cellToCoord (c : List Char) : Option (Option Dec) :=
  if c = [] then some none else (pyFloatParse c).map some

/-- Rebuild one record from a sink-file row of nine cells. -/
def rowToRec : List (List Char) → Option Rec
  | [n, t, a, p, la, lo, ci, rc, src] =>
    match cellToCoord la, cellToCoord lo with
    | some ola, some olo =>
      some { name := String.mk n, type := String.mk t, address := String.mk a,
             phone := String.mk p, latitude := ola, longitude := olo,
             city := String.mk ci, region_category := String.mk rc,
             source := String.mk src }
    | _, _ => none
  | _ => none

/-- Modelled from the spec: re-reading the written sink file ("a flat
tabular file with header row", coordinates "serialized empty when absent,
else as decimal text").  The repository re-reads `combined.csv` through a
third-party CSV reader, so the reader is modelled from the spec's words:
standard CSV parsing, a checked header row, and per-row reconstruction of
the `(name, type, address, phone, lat, lon, city, region, source)`
tuples. -/
def read_combined_csv (l : List Char) : Option (List Rec) :=
  match csvDecode l with
  | none => none
  | some [] => none
  | some (h :: rows) =>
    if h = headerRow then rows.mapM rowToRec else none

/-- Decimal digits of a natural number, most significant first:
the well-founded reference form used in proofs (`natDigs` is the
executable form). -/
def digsSpec (n : Nat) : List Char :=
  if _h : n < 10 then [digChar n]
  else digsSpec (n / 10) ++ [digChar (n % 10)]
decreasing_by exact Nat.div_lt_self (by omega) (by omega)

/-- Integer part of the absolute value of a decimal number. -/
def intPartN (d : Dec) : Nat := d.m.natAbs / 10 ^ d.e

/-- First two significant digits of a natural number (for `10 ≤ n`, the
two leading decimal digits read as a two-digit number). -/
def specFirstTwo (n : Nat) : Nat := n / 10 ^ (Nat.log 10 n - 1)

/-- Python `str.upper` on a `String`. -/
def pyUpperS (s : String) : String := String.mk (upS s.data)

/-- Deduplication policy as the specification words it: the first
occurrence of each identity key survives unchanged, in input order. -/
def specFirstOccurrenceWins : List Rec → List Rec
  | [] => []
  | r :: rest =>
    r :: specFirstOccurrenceWins (rest.filter (fun s => dedupKey s ≠ dedupKey r))
termination_by l => l.length
decreasing_by
  exact Nat.lt_succ_of_le (List.length_filter_le _ _)

/-- Identity key as the specification words it: case-folded trimmed name
plus coordinates rounded to four decimal places when present, else name
plus trimmed address. -/
inductive SpecKey where
  | withCoords (name : String) (la lo : Dec)
  | noCoords (name : String) (address : String)
deriving DecidableEq

/-- Modelled from the spec: the identity key described in the data-model
section ("Identity key `(normalized_name, rounded_latitude,
rounded_longitude)` or `(normalized_name, normalized_address)` when
coordinates are absent").  This is the spec's wording, to be compared
with the source's `dedupKey`. -/
def specIdentityKey (r : Rec) : SpecKey :=
  match r.latitude, r.longitude with
  | some la, some lo =>
    SpecKey.withCoords (String.mk (stripL (lowS r.name.data)))
      (Dec.round4 la) (Dec.round4 lo)
  | _, _ =>
    SpecKey.noCoords (String.mk (stripL (lowS r.name.data))) (stripS r.address)

/-- Is an optional coordinate canonical? -/
def optNorm : Option Dec → Bool
  | none => true
  | some d => d.isNorm

/-- Are both coordinates of a record canonical (as every record produced
by `load_csv` has them)? -/
def recNorm (r : Rec) : Bool := optNorm r.latitude && optNorm r.longitude

theorem isDigitCh_iff_mem (c : Char) : isDigitCh c = true ↔ c ∈ digitsList := by
  simp [isDigitCh]

theorem digitVal_lt_of_digit (c : Char) (h : isDigitCh c = true) : digitVal c < 10 := by
  rw [isDigitCh_iff_mem] at h
  fin_cases h <;> decide

theorem not_space_of_digit (c : Char) (h : isDigitCh c = true) : isSpaceCh c = false := by
  rw [isDigitCh_iff_mem] at h
  fin_cases h <;> decide

theorem digit_ne_special (c : Char) (h : isDigitCh c = true) :
    c ≠ '-' ∧ c ≠ '+' ∧ c ≠ '.' ∧ c ≠ 'e' ∧ c ≠ 'E' ∧
    c ≠ ',' ∧ c ≠ '"' ∧ c ≠ '\r' ∧ c ≠ '\n' := by
  rw [isDigitCh_iff_mem] at h
  fin_cases h <;> decide

theorem isDigitCh_digChar (n : Nat) (h : n < 10) : isDigitCh (digChar n) = true := by
  interval_cases n <;> decide

theorem digitVal_digChar (n : Nat) (h : n < 10) : digitVal (digChar n) = n := by
  interval_cases n <;> decide

theorem digsSpec_of_lt (n : Nat) (h : n < 10) : digsSpec n = [digChar n] := by
  rw [digsSpec]
  simp [h]

theorem digsSpec_of_ge (n : Nat) (h : ¬ n < 10) :
    digsSpec n = digsSpec (n / 10) ++ [digChar (n % 10)] := by
  rw [digsSpec]
  simp [h]

theorem natDigsGo_eq (fuel : Nat) : ∀ n acc, n ≤ fuel →
    natDigsGo fuel n acc = digsSpec n ++ acc := by
  induction fuel with
  | zero =>
    intro n acc h
    have hn : n = 0 := by omega
    subst hn
    rw [digsSpec_of_lt 0 (by omega)]
    rfl
  | succ f ih =>
    intro n acc h
    rw [natDigsGo]
    by_cases h10 : n < 10
    · rw [digsSpec_of_lt n h10]
      simp [h10]
    · have hlt : n / 10 < n := Nat.div_lt_self (by omega) (by omega)
      rw [if_neg h10, ih (n / 10) _ (by omega), digsSpec_of_ge n h10]
      simp

theorem natDigs_eq_digsSpec (n : Nat) : natDigs n = digsSpec n := by
  have h := natDigsGo_eq n n [] (Nat.le_refl n)
  simpa [natDigs] using h

theorem digsSpec_all_digits (n : Nat) : ∀ c ∈ digsSpec n, isDigitCh c = true := by
  induction n using Nat.strong_induction_on with
  | _ n ih =>
    by_cases h : n < 10
    · rw [digsSpec_of_lt n h]
      intro c hc
      rw [List.mem_singleton] at hc
      subst hc
      exact isDigitCh_digChar n h
    · rw [digsSpec_of_ge n h]
      intro c hc
      rcases List.mem_append.mp hc with h1 | h2
      · exact ih (n / 10) (Nat.div_lt_self (by omega) (by omega)) c h1
      · rw [List.mem_singleton] at h2
        subst h2
        exact isDigitCh_digChar _ (Nat.mod_lt _ (by omega))

theorem digsSpec_ne_nil (n : Nat) : digsSpec n ≠ [] := by
  by_cases h : n < 10
  · rw [digsSpec_of_lt n h]
    simp
  · rw [digsSpec_of_ge n h]
    simp

theorem foldl_digits (l : List Char) : ∀ s,
    l.foldl (fun a c => 10 * a + digitVal c) s =
      s * 10 ^ l.length + l.foldl (fun a c => 10 * a + digitVal c) 0 := by
  induction l with
  | nil => simp
  | cons c t ih =>
    intro s
    rw [List.foldl_cons, List.foldl_cons, ih (10 * s + digitVal c),
      ih (10 * 0 + digitVal c)]
    simp only [List.length_cons, pow_succ, Nat.zero_mul, Nat.zero_add]
    ring

theorem digitsVal_append (a b : List Char) :
    digitsVal (a ++ b) = digitsVal a * 10 ^ b.length + digitsVal b := by
  unfold digitsVal
  rw [List.foldl_append, foldl_digits b (List.foldl _ 0 a)]

theorem digitsVal_digsSpec (n : Nat) : digitsVal (digsSpec n) = n := by
  induction n using Nat.strong_induction_on with
  | _ n ih =>
    by_cases h : n < 10
    · rw [digsSpec_of_lt n h]
      simp [digitsVal, digitVal_digChar n h]
    · rw [digsSpec_of_ge n h, digitsVal_append,
        ih (n / 10) (Nat.div_lt_self (by omega) (by omega))]
      have hm : digitsVal [digChar (n % 10)] = n % 10 := by
        simp [digitsVal, digitVal_digChar _ (Nat.mod_lt n (by omega))]
      rw [hm]
      simp only [List.length_singleton, pow_one]
      omega

theorem digitsVal_lt (l : List Char) (h : ∀ c ∈ l, isDigitCh c = true) :
    digitsVal l < 10 ^ l.length := by
  induction l with
  | nil => simp [digitsVal]
  | cons c t ih =>
    have hv : digitVal c < 10 := digitVal_lt_of_digit c (h c (by simp))
    have ht : digitsVal t < 10 ^ t.length := ih (fun x hx => h x (by simp [hx]))
    have hc : digitsVal (c :: t) = digitVal c * 10 ^ t.length + digitsVal t := by
      unfold digitsVal
      rw [List.foldl_cons, foldl_digits t (10 * 0 + digitVal c)]
      simp [digitsVal]
    rw [hc]
    have h1 : digitVal c * 10 ^ t.length ≤ 9 * 10 ^ t.length :=
      Nat.mul_le_mul_right _ (by omega)
    simp only [List.length_cons, pow_succ]
    omega

theorem digsSpec_length (n : Nat) : (digsSpec n).length = Nat.log 10 n + 1 := by
  induction n using Nat.strong_induction_on with
  | _ n ih =>
    by_cases h : n < 10
    · rw [digsSpec_of_lt n h]
      have : Nat.log 10 n = 0 := Nat.log_eq_zero_iff.mpr (Or.inl h)
      simp [this]
    · have hlog : Nat.log 10 n = Nat.log 10 (n / 10) + 1 :=
        Nat.log_of_one_lt_of_le (by omega) (by omega)
      rw [digsSpec_of_ge n h, List.length_append,
        ih (n / 10) (Nat.div_lt_self (by omega) (by omega)), hlog]
      simp

theorem digsSpec_take_two (n : Nat) (h : 10 ≤ n) :
    digitsVal ((digsSpec n).take 2) = specFirstTwo n := by
  have hL : (digsSpec n).length = Nat.log 10 n + 1 := digsSpec_length n
  have hlog : 1 ≤ Nat.log 10 n := by
    have := Nat.log_of_one_lt_of_le (b := 10) (n := n) (by omega) h
    omega
  have hsplit : digsSpec n = (digsSpec n).take 2 ++ (digsSpec n).drop 2 :=
    (List.take_append_drop 2 (digsSpec n)).symm
  have hlen2 : ((digsSpec n).take 2).length = 2 := by
    rw [List.length_take]
    omega
  have hlend : ((digsSpec n).drop 2).length = Nat.log 10 n - 1 := by
    rw [List.length_drop]
    omega
  have hv : digitsVal (digsSpec n) =
      digitsVal ((digsSpec n).take 2) * 10 ^ (Nat.log 10 n - 1) +
        digitsVal ((digsSpec n).drop 2) := by
    conv_lhs => rw [hsplit]
    rw [digitsVal_append, hlend]
  have hdrop_digits : ∀ c ∈ (digsSpec n).drop 2, isDigitCh c = true := by
    intro c hc
    exact digsSpec_all_digits n c (List.mem_of_mem_drop hc)
  have hlt : digitsVal ((digsSpec n).drop 2) < 10 ^ (Nat.log 10 n - 1) := by
    have := digitsVal_lt _ hdrop_digits
    rwa [hlend] at this
  rw [digitsVal_digsSpec] at hv
  have hp : 0 < 10 ^ (Nat.log 10 n - 1) := Nat.pos_pow_of_pos _ (by omega)
  unfold specFirstTwo
  set P := 10 ^ (Nat.log 10 n - 1) with hP
  set T := digitsVal ((digsSpec n).take 2) with hT
  set D := digitsVal ((digsSpec n).drop 2) with hD
  rw [hv, Nat.mul_comm, Nat.mul_add_div hp, Nat.div_eq_of_lt hlt, Nat.add_zero]

theorem takeWhile_all_app (p : Char → Bool) (a b : List Char)
    (ha : ∀ c ∈ a, p c = true) :
    (a ++ b).takeWhile p = a ++ b.takeWhile p := by
  induction a with
  | nil => simp
  | cons c t ih =>
    have hc := ha c (by simp)
    have ih' := ih (fun x hx => ha x (by simp [hx]))
    simp [List.takeWhile_cons, hc, ih']

theorem dropWhile_all_app (p : Char → Bool) (a b : List Char)
    (ha : ∀ c ∈ a, p c = true) :
    (a ++ b).dropWhile p = b.dropWhile p := by
  induction a with
  | nil => simp
  | cons c t ih =>
    simp only [List.cons_append, List.dropWhile_cons, ha c (by simp)]
    exact ih (fun x hx => ha x (by simp [hx]))

theorem takeWhile_nil_of_head (p : Char → Bool) (c : Char) (t : List Char)
    (h : p c = false) : (c :: t).takeWhile p = [] := by
  simp [List.takeWhile_cons, h]

theorem dropWhile_self_of_head (p : Char → Bool) (c : Char) (t : List Char)
    (h : p c = false) : (c :: t).dropWhile p = c :: t := by
  simp [List.dropWhile_cons, h]

theorem stripL_of_no_space (l : List Char)
    (h : ∀ c ∈ l, isSpaceCh c = false) : stripL l = l := by
  have h1 : dropLead l = l := by
    unfold dropLead
    cases l with
    | nil => rfl
    | cons c t => exact dropWhile_self_of_head _ c t (h c (by simp))
  have h2 : l.reverse.dropWhile isSpaceCh = l.reverse := by
    cases hr : l.reverse with
    | nil => rfl
    | cons c t =>
      have hc : c ∈ l := by
        have : c ∈ l.reverse := by rw [hr]; simp
        rwa [List.mem_reverse] at this
      exact dropWhile_self_of_head _ c t (h c hc)
  unfold stripL dropTrail
  rw [h1, h2, List.reverse_reverse]

theorem normGo_isNorm (e : Nat) : ∀ m : Int, (Dec.normGo m e).isNorm = true := by
  induction e with
  | zero => intro m; simp [Dec.normGo, Dec.isNorm]
  | succ e ih =>
    intro m
    rw [Dec.normGo]
    by_cases h : m % 10 = 0
    · simp only [h, if_true]
      exact ih (m / 10)
    · simp [Dec.isNorm, h]

theorem norm_isNorm (d : Dec) : d.norm.isNorm = true := normGo_isNorm d.e d.m

theorem norm_of_isNorm (d : Dec) (h : d.isNorm = true) : d.norm = d := by
  obtain ⟨m, e⟩ := d
  cases e with
  | zero => rfl
  | succ e =>
    have hm : ¬ m % 10 = 0 := by
      simpa [Dec.isNorm] using h
    show Dec.normGo m (e + 1) = ⟨m, e + 1⟩
    rw [Dec.normGo, if_neg hm]

theorem mkDec_isNorm (neg : Bool) (ip fp : List Char) (k : Int) :
    (mkDec neg ip fp k).isNorm = true := norm_isNorm _

theorem pyFloatExpPart_isNorm (neg : Bool) (ip fp r : List Char) (d : Dec)
    (h : pyFloatExpPart neg ip fp r = some d) : d.isNorm = true := by
  unfold pyFloatExpPart at h
  split at h <;>
    · simp only [Option.map_eq_some'] at h
      obtain ⟨n, _, rfl⟩ := h
      exact mkDec_isNorm _ _ _ _

theorem pyFloatBody_isNorm (neg : Bool) (u : List Char) (d : Dec)
    (h : pyFloatBody neg u = some d) : d.isNorm = true := by
  unfold pyFloatBody at h
  dsimp only at h
  split at h
  · exact absurd h (by simp)
  · split at h
    · injection h with h'
      subst h'
      exact mkDec_isNorm _ _ _ _
    · exact pyFloatExpPart_isNorm _ _ _ _ _ h
    · exact pyFloatExpPart_isNorm _ _ _ _ _ h
    · exact absurd h (by simp)

theorem pyFloatParse_isNorm (l : List Char) (d : Dec)
    (h : pyFloatParse l = some d) : d.isNorm = true := by
  unfold pyFloatParse at h
  split at h <;> exact pyFloatBody_isNorm _ _ _ h

theorem foldl_replicate_zero (k : Nat) :
    List.foldl (fun a c => 10 * a + digitVal c) 0 (List.replicate k '0') = 0 := by
  induction k with
  | zero => rfl
  | succ n ih => simpa [List.replicate_succ, digitVal] using ih

theorem digitsVal_padZeros (k : Nat) (l : List Char) :
    digitsVal (padZeros k l) = digitsVal l := by
  unfold padZeros digitsVal
  rw [List.foldl_append, foldl_replicate_zero]

theorem padZeros_length (k : Nat) (l : List Char) (h : l.length ≤ k) :
    (padZeros k l).length = k := by
  unfold padZeros
  simp only [List.length_append, List.length_replicate]
  omega

theorem padZeros_all_digits (k : Nat) (l : List Char)
    (h : ∀ c ∈ l, isDigitCh c = true) :
    ∀ c ∈ padZeros k l, isDigitCh c = true := by
  intro c hc
  rcases List.mem_append.mp hc with h1 | h2
  · have : c = '0' := List.eq_of_mem_replicate h1
    subst this
    decide
  · exact h c h2

theorem digsSpec_length_le (n k : Nat) (hk : 1 ≤ k) (h : n < 10 ^ k) :
    (digsSpec n).length ≤ k := by
  rcases Nat.eq_zero_or_pos n with h0 | h0
  · subst h0
    rw [digsSpec_of_lt 0 (by omega)]
    simpa using hk
  · rw [digsSpec_length]
    have := Nat.log_lt_of_lt_pow (b := 10) (by omega : n ≠ 0) h
    omega

theorem takeWhile_eq_self_of_all (p : Char → Bool) (l : List Char)
    (h : ∀ c ∈ l, p c = true) : l.takeWhile p = l := by
  have := takeWhile_all_app p l [] h
  simpa using this

theorem dropWhile_eq_nil_of_all (p : Char → Bool) (l : List Char)
    (h : ∀ c ∈ l, p c = true) : l.dropWhile p = [] := by
  have := dropWhile_all_app p l [] h
  simpa using this

theorem pyFloatBody_print (neg : Bool) (ipd fpd : List Char)
    (hip : ipd ≠ []) (hipd : ∀ c ∈ ipd, isDigitCh c = true)
    (_hfp : fpd ≠ []) (hfpd : ∀ c ∈ fpd, isDigitCh c = true) :
    pyFloatBody neg (ipd ++ '.' :: fpd) = some (mkDec neg ipd fpd 0) := by
  unfold pyFloatBody
  dsimp only
  rw [takeWhile_all_app _ _ _ hipd, dropWhile_all_app _ _ _ hipd,
    takeWhile_nil_of_head _ _ _ (by decide),
    dropWhile_self_of_head _ _ _ (by decide), List.append_nil]
  have hPA : pyAfterDigits ('.' :: fpd) = spanDigits fpd := rfl
  rw [hPA]
  unfold spanDigits
  rw [takeWhile_eq_self_of_all _ _ hfpd, dropWhile_eq_nil_of_all _ _ hfpd]
  simp [hip]

theorem pyStrD_shape_e0 (m : Int) :
    pyStrD ⟨m, 0⟩ =
      (if m < 0 then ['-'] else []) ++ digsSpec m.natAbs ++ ['.', '0'] := by
  unfold pyStrD
  simp [natDigs_eq_digsSpec]

theorem pyStrD_shape_pos (m : Int) (e : Nat) (he : e ≠ 0) :
    pyStrD ⟨m, e⟩ =
      (if m < 0 then ['-'] else []) ++ digsSpec (m.natAbs / 10 ^ e) ++
        '.' :: padZeros e (digsSpec (m.natAbs % 10 ^ e)) := by
  unfold pyStrD
  simp only [he, if_false]
  simp [natDigs_eq_digsSpec, List.append_assoc]

theorem pyStrD_chars (d : Dec) :
    ∀ c ∈ pyStrD d, isDigitCh c = true ∨ c = '-' ∨ c = '.' := by
  obtain ⟨m, e⟩ := d
  intro c hc
  have hsgn : ∀ x ∈ (if m < 0 then ['-'] else ([] : List Char)),
      isDigitCh x = true ∨ x = '-' ∨ x = '.' := by
    intro x hx
    split at hx
    · rw [List.mem_singleton] at hx
      subst hx
      right; left; rfl
    · cases hx
  cases e with
  | zero =>
    rw [pyStrD_shape_e0] at hc
    rcases List.mem_append.mp hc with h1 | h2
    · rcases List.mem_append.mp h1 with h3 | h4
      · exact hsgn c h3
      · exact Or.inl (digsSpec_all_digits _ c h4)
    · rcases List.mem_cons.mp h2 with h5 | h6
      · subst h5; right; right; rfl
      · rw [List.mem_singleton] at h6
        subst h6
        left; decide
  | succ e' =>
    rw [pyStrD_shape_pos m (e' + 1) (by omega)] at hc
    rcases List.mem_append.mp hc with h1 | h2
    · rcases List.mem_append.mp h1 with h3 | h4
      · exact hsgn c h3
      · exact Or.inl (digsSpec_all_digits _ c h4)
    · rcases List.mem_cons.mp h2 with h5 | h6
      · subst h5; right; right; rfl
      · exact Or.inl
          (padZeros_all_digits _ _ (fun x hx => digsSpec_all_digits _ x hx) c h6)

theorem pyStrD_no_space (d : Dec) : ∀ c ∈ pyStrD d, isSpaceCh c = false := by
  intro c hc
  rcases pyStrD_chars d c hc with h | h | h
  · exact not_space_of_digit c h
  · subst h; decide
  · subst h; decide

theorem pyFloatParse_cons_neg (body : List Char)
    (hns : ∀ c ∈ body, isSpaceCh c = false) :
    pyFloatParse ('-' :: body) = pyFloatBody true body := by
  have hs : stripL ('-' :: body) = '-' :: body := by
    apply stripL_of_no_space
    intro c hc
    rcases List.mem_cons.mp hc with h | h
    · subst h; decide
    · exact hns c h
  unfold pyFloatParse
  rw [hs]
  rfl

theorem pyFloatParse_digit_head (c : Char) (t : List Char)
    (hc : isDigitCh c = true) (hns : ∀ x ∈ c :: t, isSpaceCh x = false) :
    pyFloatParse (c :: t) = pyFloatBody false (c :: t) := by
  have hs : stripL (c :: t) = c :: t := stripL_of_no_space _ hns
  obtain ⟨hm, hp, -⟩ := digit_ne_special c hc
  unfold pyFloatParse
  rw [hs]
  split
  · rename_i u heq
    exact absurd (List.head_eq_of_cons_eq heq) hm
  · rename_i u heq
    exact absurd (List.head_eq_of_cons_eq heq) hp
  · rfl

theorem mkDec_zero_exp (neg : Bool) (I F : List Char) (hFne : F ≠ []) :
    mkDec neg I F 0 =
      Dec.norm ⟨if neg then -(digitsVal (I ++ F) : Int) else (digitsVal (I ++ F) : Int),
        F.length⟩ := by
  unfold mkDec
  dsimp only
  have hFlen : 0 < F.length := List.length_pos.mpr hFne
  have hex : ¬ (0 : Int) ≤ 0 - (F.length : Int) := by
    omega
  rw [if_neg hex]
  congr 1
  simp

theorem norm_ten_times (w : Int) : Dec.norm ⟨w * 10, 1⟩ = ⟨w, 0⟩ := by
  show Dec.normGo (w * 10) 1 = ⟨w, 0⟩
  rw [Dec.normGo, if_pos (Int.mul_emod_left w 10),
    Int.mul_ediv_cancel w (by decide : (10 : Int) ≠ 0)]
  rfl

theorem padZeros_ne_nil (k : Nat) (l : List Char) (h : l ≠ []) :
    padZeros k l ≠ [] := by
  unfold padZeros
  intro hx
  exact h (List.append_eq_nil.mp hx).2

theorem pyFloatParse_digits_start (I r2 : List Char) (hI : I ≠ [])
    (hId : ∀ c ∈ I, isDigitCh c = true)
    (hns : ∀ c ∈ I ++ r2, isSpaceCh c = false) :
    pyFloatParse (I ++ r2) = pyFloatBody false (I ++ r2) := by
  cases I with
  | nil => exact absurd rfl hI
  | cons c t =>
    have := pyFloatParse_digit_head c (t ++ r2) (hId c (by simp)) (by simpa using hns)
    simpa using this

theorem pyFloatParse_pyStrD (d : Dec) (h : d.isNorm = true) :
    pyFloatParse (pyStrD d) = some d := by
  obtain ⟨m, e⟩ := d
  cases e with
  | zero =>
    have hfpd : ∀ c ∈ ['0'], isDigitCh c = true := by decide
    have hns : ∀ c ∈ digsSpec m.natAbs ++ '.' :: ['0'], isSpaceCh c = false := by
      intro c hc
      rcases List.mem_append.mp hc with h1 | h2
      · exact not_space_of_digit c (digsSpec_all_digits _ c h1)
      · rcases List.mem_cons.mp h2 with h3 | h4
        · subst h3; decide
        · rw [List.mem_singleton] at h4; subst h4; decide
    have hprint : ∀ ng, pyFloatBody ng (digsSpec m.natAbs ++ '.' :: ['0']) =
        some (mkDec ng (digsSpec m.natAbs) ['0'] 0) := fun ng =>
      pyFloatBody_print ng _ _ (digsSpec_ne_nil _) (digsSpec_all_digits _)
        (by simp) hfpd
    have hval : ∀ ng : Bool, mkDec ng (digsSpec m.natAbs) ['0'] 0 =
        Dec.norm ⟨(if ng then -(m.natAbs : Int) else (m.natAbs : Int)) * 10, 1⟩ := by
      intro ng
      rw [mkDec_zero_exp ng _ _ (by simp)]
      have hdv : digitsVal (digsSpec m.natAbs ++ ['0']) = m.natAbs * 10 := by
        rw [digitsVal_append, digitsVal_digsSpec]
        have h0 : digitsVal ['0'] = 0 := by decide
        rw [h0]
        simp
      rw [hdv]
      cases ng
      · have hc : ((m.natAbs * 10 : Nat) : Int) = (m.natAbs : Int) * 10 := by
          push_cast; ring
        simp [hc]
      · have hc : -((m.natAbs * 10 : Nat) : Int) = -(m.natAbs : Int) * 10 := by
          push_cast; ring
        simp [hc]
    by_cases hm : m < 0
    · rw [pyStrD_shape_e0, if_pos hm]
      have hb : ['-'] ++ digsSpec m.natAbs ++ ['.', '0'] =
          '-' :: (digsSpec m.natAbs ++ '.' :: ['0']) := by simp
      rw [hb, pyFloatParse_cons_neg _ hns, hprint true, hval true]
      have hmm : -(m.natAbs : Int) = m := by omega
      rw [if_pos rfl, hmm, norm_ten_times]
    · rw [pyStrD_shape_e0, if_neg hm]
      have hb : ([] : List Char) ++ digsSpec m.natAbs ++ ['.', '0'] =
          digsSpec m.natAbs ++ '.' :: ['0'] := by simp
      rw [hb, pyFloatParse_digits_start _ _ (digsSpec_ne_nil _)
        (digsSpec_all_digits _) hns, hprint false, hval false]
      have hmm : (m.natAbs : Int) = m := by omega
      rw [if_neg (by simp), hmm, norm_ten_times]
  | succ e' =>
    have hP : (0 : Nat) < 10 ^ (e' + 1) := Nat.pos_pow_of_pos _ (by omega)
    have hr : m.natAbs % 10 ^ (e' + 1) < 10 ^ (e' + 1) := Nat.mod_lt _ hP
    have hFlen : (padZeros (e' + 1) (digsSpec (m.natAbs % 10 ^ (e' + 1)))).length
        = e' + 1 :=
      padZeros_length _ _ (digsSpec_length_le _ _ (by omega) hr)
    have hFd : ∀ c ∈ padZeros (e' + 1) (digsSpec (m.natAbs % 10 ^ (e' + 1))),
        isDigitCh c = true :=
      padZeros_all_digits _ _ (digsSpec_all_digits _)
    have hFne : padZeros (e' + 1) (digsSpec (m.natAbs % 10 ^ (e' + 1))) ≠ [] :=
      padZeros_ne_nil _ _ (digsSpec_ne_nil _)
    have hdv : digitsVal (digsSpec (m.natAbs / 10 ^ (e' + 1)) ++
        padZeros (e' + 1) (digsSpec (m.natAbs % 10 ^ (e' + 1)))) = m.natAbs := by
      rw [digitsVal_append, digitsVal_digsSpec, hFlen, digitsVal_padZeros,
        digitsVal_digsSpec]
      have hdm := Nat.div_add_mod m.natAbs (10 ^ (e' + 1))
      rw [Nat.mul_comm] at hdm
      exact hdm
    have hns : ∀ c ∈ digsSpec (m.natAbs / 10 ^ (e' + 1)) ++
        '.' :: padZeros (e' + 1) (digsSpec (m.natAbs % 10 ^ (e' + 1))),
        isSpaceCh c = false := by
      intro c hc
      rcases List.mem_append.mp hc with h1 | h2
      · exact not_space_of_digit c (digsSpec_all_digits _ c h1)
      · rcases List.mem_cons.mp h2 with h3 | h4
        · subst h3; decide
        · exact not_space_of_digit c (hFd c h4)
    have hprint : ∀ ng, pyFloatBody ng (digsSpec (m.natAbs / 10 ^ (e' + 1)) ++
        '.' :: padZeros (e' + 1) (digsSpec (m.natAbs % 10 ^ (e' + 1)))) =
        some (mkDec ng (digsSpec (m.natAbs / 10 ^ (e' + 1)))
          (padZeros (e' + 1) (digsSpec (m.natAbs % 10 ^ (e' + 1)))) 0) := fun ng =>
      pyFloatBody_print ng _ _ (digsSpec_ne_nil _) (digsSpec_all_digits _)
        hFne hFd
    have hval : ∀ ng : Bool, mkDec ng (digsSpec (m.natAbs / 10 ^ (e' + 1)))
        (padZeros (e' + 1) (digsSpec (m.natAbs % 10 ^ (e' + 1)))) 0 =
        Dec.norm ⟨if ng then -(m.natAbs : Int) else (m.natAbs : Int), e' + 1⟩ := by
      intro ng
      rw [mkDec_zero_exp ng _ _ hFne, hdv, hFlen]
    by_cases hm : m < 0
    · rw [pyStrD_shape_pos m (e' + 1) (by omega), if_pos hm]
      have hb : ['-'] ++ digsSpec (m.natAbs / 10 ^ (e' + 1)) ++
          '.' :: padZeros (e' + 1) (digsSpec (m.natAbs % 10 ^ (e' + 1))) =
          '-' :: (digsSpec (m.natAbs / 10 ^ (e' + 1)) ++
            '.' :: padZeros (e' + 1) (digsSpec (m.natAbs % 10 ^ (e' + 1)))) := by
        simp
      rw [hb, pyFloatParse_cons_neg _ hns, hprint true, hval true]
      have hmm : -(m.natAbs : Int) = m := by omega
      rw [if_pos rfl, hmm, norm_of_isNorm _ h]
    · rw [pyStrD_shape_pos m (e' + 1) (by omega), if_neg hm]
      have hb : ([] : List Char) ++ digsSpec (m.natAbs / 10 ^ (e' + 1)) ++
          '.' :: padZeros (e' + 1) (digsSpec (m.natAbs % 10 ^ (e' + 1))) =
          digsSpec (m.natAbs / 10 ^ (e' + 1)) ++
            '.' :: padZeros (e' + 1) (digsSpec (m.natAbs % 10 ^ (e' + 1))) := by
        simp
      rw [hb, pyFloatParse_digits_start _ _ (digsSpec_ne_nil _)
        (digsSpec_all_digits _) hns, hprint false, hval false]
      have hmm : (m.natAbs : Int) = m := by omega
      rw [if_neg (by simp), hmm, norm_of_isNorm _ h]

theorem pyStrD_absD_shape (d : Dec) :
    ∃ tl, pyStrD d.absD = digsSpec (intPartN d) ++ '.' :: tl := by
  obtain ⟨m, e⟩ := d
  have habs : Dec.absD ⟨m, e⟩ = ⟨|m|, e⟩ := rfl
  have hna : |m|.natAbs = m.natAbs := Int.natAbs_abs m
  have hnn : ¬ |m| < 0 := not_lt.mpr (abs_nonneg m)
  cases e with
  | zero =>
    refine ⟨['0'], ?_⟩
    rw [habs, pyStrD_shape_e0, if_neg hnn, hna]
    unfold intPartN
    simp
  | succ e' =>
    refine ⟨padZeros (e' + 1) (digsSpec (m.natAbs % 10 ^ (e' + 1))), ?_⟩
    rw [habs, pyStrD_shape_pos _ _ (by omega), if_neg hnn, hna]
    unfold intPartN
    simp

theorem stripL_digits_self (l : List Char) (h : ∀ c ∈ l, isDigitCh c = true) :
    stripL l = l :=
  stripL_of_no_space l (fun c hc => not_space_of_digit c (h c hc))

theorem pyIntParse_all_digits (l : List Char) (hne : l ≠ [])
    (hall : ∀ c ∈ l, isDigitCh c = true) :
    pyIntParse l = some ((digitsVal l : Nat) : Int) := by
  have hs : stripL l = l := stripL_digits_self l hall
  obtain ⟨c, t, hct⟩ : ∃ c t, l = c :: t := by
    cases l with
    | nil => exact absurd rfl hne
    | cons c t => exact ⟨c, t, rfl⟩
  have hcd : isDigitCh c = true := hall c (by rw [hct]; simp)
  obtain ⟨hm, hp, -⟩ := digit_ne_special c hcd
  unfold pyIntParse
  rw [hs, hct]
  split
  · rename_i u heq
    exact absurd (List.head_eq_of_cons_eq heq) hm
  · rename_i u heq
    exact absurd (List.head_eq_of_cons_eq heq) hp
  · have hpu : parseUnsigned (c :: t) = some (digitsVal (c :: t)) := by
      unfold parseUnsigned
      rw [if_pos]
      constructor
      · simp
      · rw [List.all_eq_true]
        intro x hx
        exact hall x (by rw [hct]; exact hx)
    rw [hpu]
    rfl

theorem pyIntParse_digit_dot (c : Char) (hc : isDigitCh c = true) :
    pyIntParse [c, '.'] = none := by
  have hs : stripL [c, '.'] = [c, '.'] := by
    apply stripL_of_no_space
    intro x hx
    rcases List.mem_cons.mp hx with h1 | h2
    · rw [h1]; exact not_space_of_digit c hc
    · rw [List.mem_singleton] at h2; rw [h2]; decide
  obtain ⟨hm, hp, -⟩ := digit_ne_special c hc
  unfold pyIntParse
  rw [hs]
  split
  · rename_i u heq
    exact absurd (List.head_eq_of_cons_eq heq) hm
  · rename_i u heq
    exact absurd (List.head_eq_of_cons_eq heq) hp
  · have hpu : parseUnsigned [c, '.'] = none := by
      unfold parseUnsigned
      rw [if_neg]
      rintro ⟨-, h2⟩
      rw [List.all_eq_true] at h2
      have := h2 '.' (by simp)
      exact absurd this (by decide)
    rw [hpu]
    rfl

theorem take_two_small (d : Dec) (hsm : intPartN d < 10) :
    (pyStrD d.absD).take 2 = [digChar (intPartN d), '.'] := by
  obtain ⟨tl, htl⟩ := pyStrD_absD_shape d
  rw [htl, digsSpec_of_lt _ hsm]
  rfl

theorem prefix_two_int_none (d : Dec) (hsm : intPartN d < 10) :
    pyIntParse ((pyStrD d.absD).take 2) = none := by
  rw [take_two_small d hsm]
  exact pyIntParse_digit_dot _ (isDigitCh_digChar _ hsm)

theorem prefix_two_int_some (d : Dec) (hbig : 10 ≤ intPartN d) :
    pyIntParse ((pyStrD d.absD).take 2) =
      some ((specFirstTwo (intPartN d) : Nat) : Int) := by
  obtain ⟨tl, htl⟩ := pyStrD_absD_shape d
  have hlen : 2 ≤ (digsSpec (intPartN d)).length := by
    rw [digsSpec_length]
    have := Nat.log_of_one_lt_of_le (b := 10) (n := intPartN d) (by omega) hbig
    omega
  have htake : (digsSpec (intPartN d) ++ '.' :: tl).take 2 =
      (digsSpec (intPartN d)).take 2 := List.take_append_of_le_length hlen
  rw [htl, htake]
  have hne : (digsSpec (intPartN d)).take 2 ≠ [] := by
    have h2 : ((digsSpec (intPartN d)).take 2).length = 2 := by
      rw [List.length_take]
      omega
    intro hx
    rw [hx] at h2
    simp at h2
  have hall : ∀ c ∈ (digsSpec (intPartN d)).take 2, isDigitCh c = true :=
    fun c hc => digsSpec_all_digits _ c (List.take_subset 2 _ hc)
  rw [pyIntParse_all_digits _ hne hall, digsSpec_take_two _ hbig]

theorem abs_val_eq (d : Dec) : |d.val| = (d.m.natAbs : ℚ) / 10 ^ d.e := by
  unfold Dec.val
  rw [abs_div, abs_pow]
  have h10 : |(10 : ℚ)| = 10 := by norm_num
  rw [h10]
  congr 1
  rw [Int.cast_natAbs, Int.cast_abs]

theorem intPartN_lt_ten_iff (d : Dec) : intPartN d < 10 ↔ |d.val| < 10 := by
  rw [abs_val_eq]
  have hpn : 0 < 10 ^ d.e := Nat.pos_pow_of_pos _ (by omega)
  have hpq : (0 : ℚ) < (10 : ℚ) ^ d.e := by positivity
  unfold intPartN
  rw [div_lt_iff₀ hpq, Nat.div_lt_iff_lt_mul hpn]
  constructor
  · intro h1
    exact_mod_cast h1
  · intro h1
    exact_mod_cast h1

theorem ten_le_intPartN_iff (d : Dec) : 10 ≤ intPartN d ↔ 10 ≤ |d.val| := by
  rw [← not_lt, ← not_lt]
  exact not_congr (intPartN_lt_ten_iff d)

theorem str_ne_empty_iff (s : String) : s ≠ "" ↔ s.data ≠ [] := by
  constructor
  · intro h hd
    exact h (by cases s; simp_all)
  · intro h hs
    subst hs
    exact h rfl

theorem parseIfTruthy_some (l : List Char) (x : Dec) (hne : l ≠ [])
    (hp : pyFloatParse l = some x) : parseIfTruthy l = some (some x) := by
  unfold parseIfTruthy
  rw [if_neg hne, hp]

theorem normalize_coordinates_eq (lx ly : String) (x y : Dec)
    (hx : lx.data ≠ []) (hy : ly.data ≠ [])
    (hpx : pyFloatParse lx.data = some x) (hpy : pyFloatParse ly.data = some y) :
    normalize_coordinates lx ly =
      match pyIntParse ((pyStrD x.absD).take 2) with
      | some xh =>
        if 42 < xh then (String.mk (pyStrD y), String.mk (pyStrD x))
        else (String.mk (pyStrD x), String.mk (pyStrD y))
      | none => ("", "") := by
  unfold normalize_coordinates
  rw [parseIfTruthy_some lx.data x hx hpx, parseIfTruthy_some ly.data y hy hpy]

theorem dedupGo_sublist (l : List Rec) : ∀ seen, List.Sublist (dedupGo seen l).1 l := by
  induction l with
  | nil => intro seen; simp [dedupGo]
  | cons r rest ih =>
    intro seen
    rw [dedupGo]
    dsimp only
    by_cases h : dedupKey r ∈ seen
    · rw [if_pos h]
      exact List.Sublist.cons r (ih seen)
    · rw [if_neg h]
      exact List.Sublist.cons₂ r (ih (dedupKey r :: seen))

theorem dedupGo_count (l : List Rec) : ∀ seen,
    (dedupGo seen l).2 = l.length - (dedupGo seen l).1.length := by
  induction l with
  | nil => intro seen; simp [dedupGo]
  | cons r rest ih =>
    intro seen
    have hle : ∀ s, (dedupGo s rest).1.length ≤ rest.length :=
      fun s => (dedupGo_sublist rest s).length_le
    rw [dedupGo]
    dsimp only
    by_cases h : dedupKey r ∈ seen
    · rw [if_pos h]
      dsimp only
      rw [ih seen]
      have := hle seen
      simp only [List.length_cons]
      omega
    · rw [if_neg h]
      dsimp only
      rw [ih (dedupKey r :: seen)]
      have := hle (dedupKey r :: seen)
      simp only [List.length_cons]
      omega

theorem dedupGo_eq_specFW (n : Nat) : ∀ (l : List Rec) (seen : List (String × Option Dec × Option Dec)),
    l.length ≤ n →
    (dedupGo seen l).1 =
      specFirstOccurrenceWins (l.filter (fun r => decide (dedupKey r ∉ seen))) := by
  induction n with
  | zero =>
    intro l seen hl
    have : l = [] := List.length_eq_zero.mp (by omega)
    subst this
    simp [dedupGo, specFirstOccurrenceWins]
  | succ n ih =>
    intro l seen hl
    cases l with
    | nil => simp [dedupGo, specFirstOccurrenceWins]
    | cons r rest =>
      rw [dedupGo]
      dsimp only
      by_cases h : dedupKey r ∈ seen
      · rw [if_pos h, List.filter_cons_of_neg (by simpa using h)]
        exact ih rest seen (by simp only [List.length_cons] at hl; omega)
      · rw [if_neg h, List.filter_cons_of_pos (by simpa using h)]
        dsimp only
        rw [specFirstOccurrenceWins,
          ih rest (dedupKey r :: seen) (by simp only [List.length_cons] at hl; omega)]
        congr 1
        rw [List.filter_filter]
        congr 1
        apply List.filter_congr
        intro x _
        by_cases h1 : dedupKey x = dedupKey r <;>
          by_cases h2 : dedupKey x ∈ seen <;>
            simp [h1, h2, List.mem_cons]

theorem deduplicate_fst_eq_specFW (l : List Rec) :
    (deduplicate_records l).1 = specFirstOccurrenceWins l := by
  have h := dedupGo_eq_specFW l.length l [] (Nat.le_refl _)
  have hf : l.filter (fun r => decide (dedupKey r ∉ ([] : List _))) = l := by
    apply List.filter_eq_self.mpr
    intro a _
    simp
  rw [deduplicate_records, h, hf]

theorem dedupGo_keys (l : List Rec) : ∀ seen,
    (∀ r ∈ (dedupGo seen l).1, dedupKey r ∉ seen) ∧
      ((dedupGo seen l).1.map dedupKey).Nodup := by
  induction l with
  | nil => intro seen; simp [dedupGo]
  | cons r rest ih =>
    intro seen
    rw [dedupGo]
    dsimp only
    by_cases h : dedupKey r ∈ seen
    · rw [if_pos h]
      exact ih seen
    · rw [if_neg h]
      obtain ⟨ih1, ih2⟩ := ih (dedupKey r :: seen)
      constructor
      · intro s hs
        rcases List.mem_cons.mp hs with h1 | h2
        · rw [h1]; exact h
        · intro hmem
          exact ih1 s h2 (List.mem_cons_of_mem _ hmem)
      · rw [List.map_cons, List.nodup_cons]
        constructor
        · intro hmem
          rcases List.mem_map.mp hmem with ⟨s, hs, hks⟩
          exact ih1 s hs (by rw [hks]; exact List.mem_cons_self _ _)
        · exact ih2

theorem dedupGo_of_nodup (l : List Rec) : ∀ seen,
    (l.map dedupKey).Nodup → (∀ r ∈ l, dedupKey r ∉ seen) →
    dedupGo seen l = (l, 0) := by
  induction l with
  | nil => intro seen _ _; rfl
  | cons r rest ih =>
    intro seen hnd hdisj
    rw [dedupGo]
    dsimp only
    rw [if_neg (hdisj r (by simp))]
    rw [List.map_cons, List.nodup_cons] at hnd
    have hrest : dedupGo (dedupKey r :: seen) rest = (rest, 0) := by
      apply ih
      · exact hnd.2
      · intro s hs hmem
        rcases List.mem_cons.mp hmem with h1 | h2
        · exact hnd.1 (by rw [← h1]; exact List.mem_map_of_mem dedupKey hs)
        · exact hdisj s (List.mem_cons_of_mem _ hs) h2
    rw [hrest]

theorem leadsWith_iff (p : List Char) : ∀ l, leadsWith p l = true ↔ ∃ t, l = p ++ t := by
  induction p with
  | nil =>
    intro l
    simp [leadsWith]
  | cons a as ih =>
    intro l
    cases l with
    | nil => simp [leadsWith]
    | cons b bs =>
      rw [leadsWith]
      simp only [Bool.and_eq_true, beq_iff_eq, ih bs]
      constructor
      · rintro ⟨rfl, t, rfl⟩
        exact ⟨t, rfl⟩
      · rintro ⟨t, ht⟩
        injection ht with h1 h2
        exact ⟨h1.symm, t, h2⟩

theorem hasSub_iff (needle : List Char) : ∀ hay,
    hasSub hay needle = true ↔ ∃ a b, hay = a ++ needle ++ b := by
  intro hay
  induction hay with
  | nil =>
    rw [hasSub]
    constructor
    · intro h
      refine ⟨[], [], ?_⟩
      have : needle = [] := by simpa using h
      simp [this]
    · rintro ⟨a, b, hab⟩
      have : needle = [] := by
        rcases List.append_eq_nil.mp (List.append_eq_nil.mp hab.symm).1 with ⟨-, h2⟩
        exact h2
      simp [this]
  | cons c t ih =>
    rw [hasSub]
    simp only [Bool.or_eq_true, leadsWith_iff, ih]
    constructor
    · rintro (⟨tl, htl⟩ | ⟨a, b, hab⟩)
      · exact ⟨[], tl, by simp [htl]⟩
      · exact ⟨c :: a, b, by simp [hab]⟩
    · rintro ⟨a, b, hab⟩
      cases a with
      | nil =>
        left
        exact ⟨b, by simpa using hab⟩
      | cons a0 as =>
        right
        injection hab with h1 h2
        exact ⟨as, b, h2⟩

theorem hasSub_map (f : Char → Char) (hay needle : List Char)
    (h : hasSub hay needle = true) :
    hasSub (hay.map f) (needle.map f) = true := by
  rw [hasSub_iff] at h ⊢
  obtain ⟨a, b, rfl⟩ := h
  exact ⟨a.map f, b.map f, by simp⟩

theorem classList_no_space : ∀ c ∈ classList, isSpaceCh c = false := by decide

theorem inClass_not_space (c : Char) (h : inClassCh c = true) :
    isSpaceCh c = false := by
  apply classList_no_space
  simpa [inClassCh] using h

theorem upChar_of_caseless_sh (c : Char) (h : eqCaseless c 'ş' = true) :
    upChar c = 'Ş' := by
  simp only [eqCaseless, Bool.or_eq_true, beq_iff_eq] at h
  rcases h with h1 | h1
  · rw [h1]; decide
  · rw [h1]; decide

theorem upChar_of_caseless_e (c : Char) (h : eqCaseless c 'ə' = true) :
    upChar c = 'Ə' := by
  simp only [eqCaseless, Bool.or_eq_true, beq_iff_eq] at h
  rcases h with h1 | h1
  · rw [h1]; decide
  · rw [h1]; decide

theorem upChar_of_caseless_h (c : Char) (h : eqCaseless c 'h' = true) :
    upChar c = 'H' := by
  simp only [eqCaseless, Bool.or_eq_true, beq_iff_eq] at h
  rcases h with h1 | h1
  · rw [h1]; decide
  · rw [h1]; decide

theorem drop_len_takeWhile (p : Char → Bool) (l : List Char) :
    l.drop (l.takeWhile p).length = l.dropWhile p := by
  induction l with
  | nil => rfl
  | cons c t ih =>
    by_cases hp : p c
    · simp [List.takeWhile_cons, List.dropWhile_cons, hp, ih]
    · simp [List.takeWhile_cons, List.dropWhile_cons, hp]

theorem shehMatchAt_props (l w : List Char) (h : shehMatchAt l = some w) :
    w = l.takeWhile inClassCh ∧ w ≠ [] ∧
    ∃ ws c1 c2 c3 tl, l = w ++ ws ++ c1 :: c2 :: c3 :: tl ∧
      upChar c1 = 'Ş' ∧ upChar c2 = 'Ə' ∧ upChar c3 = 'H' := by
  unfold shehMatchAt at h
  dsimp only at h
  split at h
  · exact absurd h (by simp)
  · rename_i h1
    split at h
    · exact absurd h (by simp)
    · rename_i h2
      split at h
      · rename_i c1 c2 c3 tl heq
        split at h
        · rename_i h3
          injection h with hw
          simp only [Bool.and_eq_true] at h3
          obtain ⟨⟨hc1, hc2⟩, hc3⟩ := h3
          refine ⟨hw.symm, fun hx => h1 (hw.trans hx), ?_⟩
          refine ⟨(l.drop (l.takeWhile inClassCh).length).takeWhile isSpaceCh,
            c1, c2, c3, tl, ?_, upChar_of_caseless_sh _ hc1,
            upChar_of_caseless_e _ hc2, upChar_of_caseless_h _ hc3⟩
          have e1 : l = l.takeWhile inClassCh ++ l.drop (l.takeWhile inClassCh).length := by
            conv_lhs =>
              rw [← List.takeWhile_append_dropWhile (p := inClassCh) (l := l)]
            rw [drop_len_takeWhile, List.takeWhile_append_dropWhile]
          have e3 : (l.drop (l.takeWhile inClassCh).length).dropWhile isSpaceCh =
              c1 :: c2 :: c3 :: tl := by
            rw [← drop_len_takeWhile isSpaceCh (l.drop (l.takeWhile inClassCh).length)]
            exact heq
          have e2 : l.drop (l.takeWhile inClassCh).length =
              (l.drop (l.takeWhile inClassCh).length).takeWhile isSpaceCh ++
                (c1 :: c2 :: c3 :: tl) := by
            rw [← e3, List.takeWhile_append_dropWhile]
          rw [← hw, List.append_assoc]
          conv_lhs => rw [e1]
          congr 1
        · exact absurd h (by simp)
      · exact absurd h (by simp)

theorem shehSearch_split (l w : List Char) (h : shehSearch l = some w) :
    ∃ pre rest, l = pre ++ rest ∧ shehMatchAt rest = some w := by
  induction l with
  | nil =>
    rw [shehSearch] at h
    exact absurd h (by simp)
  | cons c t ih =>
    rw [shehSearch] at h
    cases hma : shehMatchAt (c :: t) with
    | some r =>
      simp only [hma] at h
      injection h with hr
      exact ⟨[], c :: t, by simp, by rw [hma, hr]⟩
    | none =>
      simp only [hma] at h
      obtain ⟨pre, rest, hpr, hm⟩ := ih h
      exact ⟨c :: pre, rest, by simp [hpr], hm⟩

theorem shehSearch_props (l w : List Char) (h : shehSearch l = some w) :
    (∃ a b, l = a ++ w ++ b) ∧ (∀ x ∈ w, inClassCh x = true) ∧
    hasSub (upS l) ['Ş', 'Ə', 'H'] = true := by
  obtain ⟨pre, rest, rfl, hm⟩ := shehSearch_split l w h
  obtain ⟨hwt, hne, ws, c1, c2, c3, tl, hrest, h1, h2, h3⟩ :=
    shehMatchAt_props rest w hm
  refine ⟨⟨pre, ws ++ c1 :: c2 :: c3 :: tl, by rw [hrest]; simp⟩, ?_, ?_⟩
  · intro x hx
    rw [hwt] at hx
    exact List.mem_takeWhile_imp hx
  · rw [hasSub_iff]
    refine ⟨upS pre ++ upS w ++ upS ws, upS tl, ?_⟩
    rw [hrest]
    unfold upS
    simp [h1, h2, h3]

theorem detect_city_hint (a h : String) (hh : stripS h ≠ "") :
    detect_city a h = stripS h := by
  have hne : h ≠ "" := by
    intro he
    exact hh (by rw [he]; rfl)
  unfold detect_city
  rw [if_pos ⟨hne, hh⟩]

theorem detect_city_empty_address (h : String) (hh : stripS h = "") :
    detect_city "" h = "Unknown" := by
  unfold detect_city
  rw [if_neg (fun hx => hx.2 hh), if_pos rfl]

theorem detect_city_district (a h : String) (hh : stripS h = "") (ha : a ≠ "")
    (hd : BAKU_DISTRICTS.any (fun d => hasSub (upS a.data) (upS d.data)) = true) :
    detect_city a h = "Bakı" := by
  unfold detect_city
  rw [if_neg (fun hx => hx.2 hh), if_neg ha]
  dsimp only
  rw [if_pos hd]

theorem detect_city_region (a h : String) (hh : stripS h = "") (ha : a ≠ "")
    (hd : BAKU_DISTRICTS.any (fun d => hasSub (upS a.data) (upS d.data)) = false)
    (v : String) (hr : regFind REGIONS (upS a.data) = some v) :
    detect_city a h = v := by
  unfold detect_city
  rw [if_neg (fun hx => hx.2 hh), if_neg ha]
  dsimp only
  rw [if_neg (by simp [hd]), hr]

theorem detect_city_sheh (a h : String) (hh : stripS h = "") (ha : a ≠ "")
    (hd : BAKU_DISTRICTS.any (fun d => hasSub (upS a.data) (upS d.data)) = false)
    (hr : regFind REGIONS (upS a.data) = none)
    (w : List Char) (hs : shehSearch a.data = some w)
    (hb : ¬ String.mk (upS (stripL w)) ∈ (["BAKI", "BAKI"] : List String)) :
    detect_city a h = String.mk (stripL w) := by
  have hsheh : hasSub (upS a.data) ("ŞƏH".data) = true := by
    have := (shehSearch_props a.data w hs).2.2
    exact this
  unfold detect_city
  rw [if_neg (fun hx => hx.2 hh), if_neg ha]
  dsimp only
  rw [if_neg (by simp [hd]), hr, if_pos (by rw [hsheh]; simp), hs]
  dsimp only
  rw [if_pos hb]

theorem detect_city_default (a h : String) (hh : stripS h = "") (ha : a ≠ "")
    (hd : BAKU_DISTRICTS.any (fun d => hasSub (upS a.data) (upS d.data)) = false)
    (hr : regFind REGIONS (upS a.data) = none)
    (hs : shehSearch a.data = none) :
    detect_city a h = "Bakı" := by
  unfold detect_city
  rw [if_neg (fun hx => hx.2 hh), if_neg ha]
  dsimp only
  rw [if_neg (by simp [hd]), hr]
  by_cases hsheh : (hasSub (upS a.data) ("ŞƏH".data) ||
      hasSub (upS a.data) ("ŞƏHƏR".data)) = true
  · rw [if_pos hsheh, hs]
  · rw [if_neg hsheh]

theorem detect_region_category_iff (c : String) :
    detect_region_category c = "Bakı" ↔
      c ∈ (["Bakı", "Baku", "Baki", "Absheron", "Xırdalan"] : List String) := by
  unfold detect_region_category
  split
  · rename_i hmem
    simp [hmem]
  · rename_i hmem
    constructor
    · intro hx
      exact absurd hx (by decide)
    · intro hx
      exact absurd hx hmem

theorem parseQuotGo_cons_ne (f : Nat) (acc : List Char) (c : Char)
    (t : List Char) (hc : ¬ c = '"') :
    parseQuotGo (f + 1) acc (c :: t) = parseQuotGo f (acc ++ [c]) t := by
  have h0 : parseQuotGo (f + 1) acc (c :: t) =
      if c = '"' then
        (match t with
          | '"' :: t2 => parseQuotGo f (acc ++ ['"']) t2
          | _ => some (acc, t))
      else parseQuotGo f (acc ++ [c]) t := rfl
  rw [h0, if_neg hc]

theorem parseQuotGo_round (s : List Char) :
    ∀ fuel acc rest, (escQuotes s).length + 1 ≤ fuel →
    ((∃ t, rest = ',' :: t) ∨ (∃ t, rest = '\r' :: t) ∨ rest = []) →
    parseQuotGo fuel acc (escQuotes s ++ '"' :: rest) = some (acc ++ s, rest) := by
  induction s with
  | nil =>
    intro fuel acc rest hfuel hsep
    obtain ⟨f, rfl⟩ : ∃ f, fuel = f + 1 := by
      cases fuel with
      | zero => simp [escQuotes] at hfuel
      | succ f => exact ⟨f, rfl⟩
    show parseQuotGo (f + 1) acc ('"' :: rest) = some (acc ++ [], rest)
    rw [List.append_nil]
    rcases hsep with ⟨t, rfl⟩ | ⟨t, rfl⟩ | rfl <;> rfl
  | cons c t ih =>
    intro fuel acc rest hfuel hsep
    by_cases hc : c = '"'
    · subst hc
      have hesc : escQuotes ('"' :: t) = '"' :: '"' :: escQuotes t := rfl
      rw [hesc] at hfuel ⊢
      obtain ⟨f, rfl⟩ : ∃ f, fuel = f + 1 := by
        cases fuel with
        | zero => simp at hfuel
        | succ f => exact ⟨f, rfl⟩
      have hstep : parseQuotGo (f + 1) acc ('"' :: '"' :: (escQuotes t ++ '"' :: rest)) =
          parseQuotGo f (acc ++ ['"']) (escQuotes t ++ '"' :: rest) := rfl
      show parseQuotGo (f + 1) acc ('"' :: ('"' :: (escQuotes t ++ '"' :: rest))) =
        some (acc ++ '"' :: t, rest)
      rw [hstep, ih f (acc ++ ['"']) rest (by simp at hfuel ⊢; omega) hsep]
      simp
    · have hesc : escQuotes (c :: t) = c :: escQuotes t := by
        rw [escQuotes.eq_def]
        split
        · rename_i heq
          exact absurd heq (by simp)
        · rename_i t' heq
          exact absurd (List.head_eq_of_cons_eq heq.symm).symm hc
        · rename_i c' t' heq
          rw [(List.head_eq_of_cons_eq heq).symm, (List.tail_eq_of_cons_eq heq).symm]
      rw [hesc] at hfuel ⊢
      obtain ⟨f, rfl⟩ : ∃ f, fuel = f + 1 := by
        cases fuel with
        | zero => simp at hfuel
        | succ f => exact ⟨f, rfl⟩
      show parseQuotGo (f + 1) acc (c :: (escQuotes t ++ '"' :: rest)) =
        some (acc ++ c :: t, rest)
      rw [parseQuotGo_cons_ne f acc c _ hc,
        ih f (acc ++ [c]) rest (by simp at hfuel ⊢; omega) hsep]
      simp

theorem parseCell_ne_quote (c : Char) (t : List Char) (hc : ¬ c = '"') :
    parseCell (c :: t) =
      some ((c :: t).takeWhile (fun x => !(x == ',' || x == '\r' || x == '\n')),
        (c :: t).drop
          (((c :: t).takeWhile (fun x => !(x == ',' || x == '\r' || x == '\n'))).length)) := by
  rw [parseCell.eq_def]
  split
  · rename_i t' heq
    exact absurd (List.head_eq_of_cons_eq heq) hc
  · rfl

theorem parseCell_encodeCell (s rest : List Char)
    (hsep : (∃ t, rest = ',' :: t) ∨ (∃ t, rest = '\r' :: t) ∨ rest = []) :
    parseCell (encodeCell s ++ rest) = some (s, rest) := by
  by_cases hq : needsQuote s = true
  · have henc : (encodeCell s) ++ rest = '"' :: (escQuotes s ++ '"' :: rest) := by
      unfold encodeCell
      rw [if_pos hq]
      simp
    rw [henc]
    have hstep : parseCell ('"' :: (escQuotes s ++ '"' :: rest)) =
        parseQuotGo ((escQuotes s ++ '"' :: rest).length + 1) []
          (escQuotes s ++ '"' :: rest) := rfl
    rw [hstep, parseQuotGo_round s _ [] rest (by simp) hsep]
    simp
  · have henc : encodeCell s = s := by
      unfold encodeCell
      rw [if_neg hq]
    rw [henc]
    have hmem : ∀ x ∈ s, (fun x => !(x == ',' || x == '\r' || x == '\n')) x = true := by
      intro x hx
      have hfalse : (x == ',' || x == '"' || x == '\r' || x == '\n') = false := by
        by_contra hb
        apply hq
        unfold needsQuote
        rw [List.any_eq_true]
        refine ⟨x, hx, ?_⟩
        revert hb
        cases x == ',' || x == '"' || x == '\r' || x == '\n' <;> simp
      simp only [Bool.or_eq_false_iff] at hfalse
      simp [hfalse.1.1.1, hfalse.1.2, hfalse.2]
    have hrest_take : rest.takeWhile (fun x => !(x == ',' || x == '\r' || x == '\n')) = [] := by
      rcases hsep with ⟨t, rfl⟩ | ⟨t, rfl⟩ | rfl
      · rfl
      · rfl
      · rfl
    cases s with
    | nil =>
      simp only [List.nil_append]
      rcases hsep with ⟨t, rfl⟩ | ⟨t, rfl⟩ | rfl <;> rfl
    | cons c t0 =>
      have hc : ¬ c = '"' := by
        have hx := hmem c (by simp)
        intro hcq
        subst hcq
        have hfq : ¬ needsQuote ('"' :: t0) = true → False := fun hnq => by
          apply hnq
          unfold needsQuote
          rw [List.any_eq_true]
          exact ⟨'"', by simp, by decide⟩
        exact hfq hq
      rw [List.cons_append, parseCell_ne_quote c (t0 ++ rest) hc,
        ← List.cons_append, takeWhile_all_app _ _ _ hmem, hrest_take,
        List.append_nil, List.drop_left]

theorem parseRowGo_round (rest : List Char) :
    ∀ (cells : List (List Char)) (fuel : Nat), cells ≠ [] → cells.length ≤ fuel →
    parseRowGo fuel (joinComma (cells.map encodeCell) ++ '\r' :: '\n' :: rest) =
      some (cells, rest) := by
  intro cells
  induction cells with
  | nil => intro fuel hne _; exact absurd rfl hne
  | cons c cs ih =>
    intro fuel _ hlen
    obtain ⟨f, rfl⟩ : ∃ f, fuel = f + 1 := by
      cases fuel with
      | zero => simp at hlen
      | succ f => exact ⟨f, rfl⟩
    cases cs with
    | nil =>
      have hj : joinComma ([c].map encodeCell) = encodeCell c := rfl
      rw [hj]
      have hrow : parseRowGo (f + 1) (encodeCell c ++ '\r' :: '\n' :: rest) =
          match parseCell (encodeCell c ++ '\r' :: '\n' :: rest) with
          | none => none
          | some (cell, r2) =>
            match r2 with
            | ',' :: t => (parseRowGo f t).map (fun p => (cell :: p.1, p.2))
            | '\r' :: '\n' :: t => some ([cell], t)
            | '\n' :: t => some ([cell], t)
            | [] => some ([cell], [])
            | _ => none := rfl
      rw [hrow, parseCell_encodeCell c _ (Or.inr (Or.inl ⟨'\n' :: rest, rfl⟩))]
      rfl
    | cons d cs2 =>
      have hj : joinComma ((c :: d :: cs2).map encodeCell) =
          encodeCell c ++ ',' :: joinComma ((d :: cs2).map encodeCell) := rfl
      rw [hj]
      have hassoc : (encodeCell c ++ ',' :: joinComma ((d :: cs2).map encodeCell)) ++
          '\r' :: '\n' :: rest =
          encodeCell c ++ ',' :: (joinComma ((d :: cs2).map encodeCell) ++
            '\r' :: '\n' :: rest) := by
        simp
      rw [hassoc]
      have hrow : parseRowGo (f + 1) (encodeCell c ++
          ',' :: (joinComma ((d :: cs2).map encodeCell) ++ '\r' :: '\n' :: rest)) =
          match parseCell (encodeCell c ++
            ',' :: (joinComma ((d :: cs2).map encodeCell) ++ '\r' :: '\n' :: rest)) with
          | none => none
          | some (cell, r2) =>
            match r2 with
            | ',' :: t => (parseRowGo f t).map (fun p => (cell :: p.1, p.2))
            | '\r' :: '\n' :: t => some ([cell], t)
            | '\n' :: t => some ([cell], t)
            | [] => some ([cell], [])
            | _ => none := rfl
      rw [hrow, parseCell_encodeCell c _ (Or.inl ⟨_, rfl⟩)]
      show (parseRowGo f (joinComma ((d :: cs2).map encodeCell) ++
          '\r' :: '\n' :: rest)).map (fun p => (c :: p.1, p.2)) = some (c :: d :: cs2, rest)
      rw [ih f (by simp) (by simp at hlen ⊢; omega)]
      rfl

theorem encodeRow_ne_nil (r : List (List Char)) : encodeRow r ≠ [] := by
  unfold encodeRow
  intro hx
  exact absurd (List.append_eq_nil.mp hx).2 (by simp)

theorem joinComma_length_ge (cells : List (List Char)) :
    cells.length ≤ (joinComma cells).length + 1 := by
  induction cells with
  | nil => simp [joinComma]
  | cons c cs ih =>
    cases cs with
    | nil => simp [joinComma]
    | cons d cs2 =>
      have hj : joinComma (c :: d :: cs2) = c ++ ',' :: joinComma (d :: cs2) := rfl
      rw [hj]
      simp only [List.length_cons, List.length_append] at ih ⊢
      omega

theorem parseRowsGo_step (f : Nat) (l : List Char) (hl : l ≠ []) :
    parseRowsGo (f + 1) l =
      match parseRowGo (l.length + 1) l with
      | none => none
      | some (row, rest) => (parseRowsGo f rest).map (row :: ·) := by
  cases l with
  | nil => exact absurd rfl hl
  | cons c t => rfl

theorem parseRowsGo_round (rows : List (List (List Char))) :
    ∀ fuel, rows.length ≤ fuel → (∀ r ∈ rows, r ≠ []) →
    parseRowsGo fuel (encodeRows rows) = some rows := by
  induction rows with
  | nil =>
    intro fuel _ _
    show parseRowsGo fuel [] = some []
    cases fuel <;> rfl
  | cons r rs ih =>
    intro fuel hlen hne
    obtain ⟨f, rfl⟩ : ∃ f, fuel = f + 1 := by
      cases fuel with
      | zero => simp at hlen
      | succ f => exact ⟨f, rfl⟩
    have henc : encodeRows (r :: rs) = encodeRow r ++ encodeRows rs := by
      unfold encodeRows
      simp
    have hinne : encodeRow r ++ encodeRows rs ≠ [] := by
      intro hx
      exact encodeRow_ne_nil r (List.append_eq_nil.mp hx).1
    rw [henc, parseRowsGo_step f _ hinne]
    have hform : encodeRow r ++ encodeRows rs =
        joinComma (r.map encodeCell) ++ '\r' :: '\n' :: encodeRows rs := by
      unfold encodeRow
      simp
    have hfuel2 : r.length ≤ (encodeRow r ++ encodeRows rs).length + 1 := by
      have h1 := joinComma_length_ge (r.map encodeCell)
      unfold encodeRow
      simp only [List.length_append, List.length_map, List.length_cons] at h1 ⊢
      omega
    rw [hform]
    have hrg := parseRowGo_round (encodeRows rs) r
      ((joinComma (r.map encodeCell) ++ '\r' :: '\n' :: encodeRows rs).length + 1)
      (hne r (by simp))
      (by
        have h1 := joinComma_length_ge (r.map encodeCell)
        simp only [List.length_append, List.length_map, List.length_cons] at h1 ⊢
        omega)
    rw [hrg]
    show (parseRowsGo f (encodeRows rs)).map (fun a => r :: a) = some (r :: rs)
    rw [ih f (by simp at hlen ⊢; omega) (fun x hx => hne x (by simp [hx]))]
    rfl

theorem encodeRows_length_ge (rows : List (List (List Char))) :
    rows.length ≤ (encodeRows rows).length := by
  induction rows with
  | nil => simp [encodeRows]
  | cons r rs ih =>
    have henc : encodeRows (r :: rs) = encodeRow r ++ encodeRows rs := by
      unfold encodeRows
      simp
    have hpos : 0 < (encodeRow r).length :=
      List.length_pos.mpr (encodeRow_ne_nil r)
    rw [henc]
    simp only [List.length_cons, List.length_append]
    omega

theorem csvDecode_encodeRows (rows : List (List (List Char)))
    (hne : ∀ r ∈ rows, r ≠ []) :
    csvDecode (encodeRows rows) = some rows := by
  unfold csvDecode
  exact parseRowsGo_round rows _ (by have := encodeRows_length_ge rows; omega) hne

theorem mk_data (s : String) : String.mk s.data = s := by
  cases s
  rfl

theorem pyStrD_ne_nil (d : Dec) : pyStrD d ≠ [] := by
  obtain ⟨m, e⟩ := d
  cases e with
  | zero =>
    rw [pyStrD_shape_e0]
    simp
  | succ e' =>
    rw [pyStrD_shape_pos m (e' + 1) (by omega)]
    simp

theorem cellToCoord_coordCell (c : Option Dec) (h : optNorm c = true) :
    cellToCoord (coordCell c) = some c := by
  cases c with
  | none => rfl
  | some d =>
    show cellToCoord (pyStrD d) = some (some d)
    unfold cellToCoord
    rw [if_neg (pyStrD_ne_nil d), pyFloatParse_pyStrD d h]
    rfl

theorem rowToRec_recToRow (r : Rec) (h : recNorm r = true) :
    rowToRec (recToRow r) = some r := by
  unfold recNorm at h
  rw [Bool.and_eq_true] at h
  obtain ⟨h1, h2⟩ := h
  show rowToRec [r.name.data, r.type.data, r.address.data, r.phone.data,
    coordCell r.latitude, coordCell r.longitude, r.city.data,
    r.region_category.data, r.source.data] = some r
  simp only [rowToRec]
  rw [cellToCoord_coordCell _ h1, cellToCoord_coordCell _ h2]

theorem mapM_rowToRec (recs : List Rec) (h : ∀ r ∈ recs, recNorm r = true) :
    (recs.map recToRow).mapM rowToRec = some recs := by
  induction recs with
  | nil => rfl
  | cons r rs ih =>
    rw [List.map_cons, List.mapM_cons, rowToRec_recToRow r (h r (by simp)),
      ih (fun x hx => h x (by simp [hx]))]
    rfl

theorem read_save_round (recs : List Rec) (h : ∀ r ∈ recs, recNorm r = true) :
    read_combined_csv (save_combined_csv recs) = some recs := by
  unfold save_combined_csv read_combined_csv
  rw [csvDecode_encodeRows (headerRow :: recs.map recToRow) ?_]
  · show (if headerRow = headerRow then (recs.map recToRow).mapM rowToRec else none) =
      some recs
    rw [if_pos rfl, mapM_rowToRec recs h]
  · intro r hr
    rcases List.mem_cons.mp hr with h1 | h2
    · rw [h1]
      simp [headerRow]
    · rcases List.mem_map.mp h2 with ⟨x, -, hx⟩
      rw [← hx]
      simp [recToRow]

theorem lookup_mem {α β : Type} [BEq α] [LawfulBEq α]
    (l : List (α × β)) (k : α) (v : β) (h : List.lookup k l = some v) :
    (k, v) ∈ l := by
  induction l with
  | nil => simp [List.lookup] at h
  | cons p t ih =>
    obtain ⟨k1, v1⟩ := p
    rw [List.lookup] at h
    cases hbe : k == k1 with
    | true =>
      rw [hbe] at h
      injection h with hv
      have hk : k = k1 := eq_of_beq hbe
      rw [hk, hv]
      simp
    | false =>
      rw [hbe] at h
      exact List.mem_cons_of_mem _ (ih h)

theorem upPairs_vals_fresh : ∀ p ∈ upPairs, List.lookup p.2 upPairs = none := by
  decide

theorem upPairs_no_space : ∀ p ∈ upPairs,
    isSpaceCh p.1 = false ∧ isSpaceCh p.2 = false := by
  decide

theorem upChar_idem (c : Char) : upChar (upChar c) = upChar c := by
  unfold upChar
  cases hl : List.lookup c upPairs with
  | none => simp [hl]
  | some v =>
    have hv : List.lookup v upPairs = none :=
      upPairs_vals_fresh (c, v) (lookup_mem upPairs c v hl)
    simp [hl, hv]

theorem isSpaceCh_upChar (c : Char) : isSpaceCh (upChar c) = isSpaceCh c := by
  unfold upChar
  cases hl : List.lookup c upPairs with
  | none => simp [hl]
  | some v =>
    have hm := lookup_mem upPairs c v hl
    have h1 := (upPairs_no_space (c, v) hm).1
    have h2 := (upPairs_no_space (c, v) hm).2
    simp [hl, h1, h2]

theorem upS_idem (l : List Char) : upS (upS l) = upS l := by
  induction l with
  | nil => rfl
  | cons c t ih =>
    show upChar (upChar c) :: upS (upS t) = upChar c :: upS t
    rw [upChar_idem, ih]

theorem dropWhile_upS (l : List Char) :
    (upS l).dropWhile isSpaceCh = upS (l.dropWhile isSpaceCh) := by
  induction l with
  | nil => rfl
  | cons c t ih =>
    show (upChar c :: upS t).dropWhile isSpaceCh = upS ((c :: t).dropWhile isSpaceCh)
    rw [List.dropWhile_cons, List.dropWhile_cons, isSpaceCh_upChar]
    cases hs : isSpaceCh c with
    | true => simpa using ih
    | false => rfl

theorem stripL_upS (l : List Char) : stripL (upS l) = upS (stripL l) := by
  unfold stripL dropLead dropTrail
  rw [dropWhile_upS]
  show ((upS (l.dropWhile isSpaceCh)).reverse.dropWhile isSpaceCh).reverse =
    upS (((l.dropWhile isSpaceCh).reverse.dropWhile isSpaceCh).reverse)
  rw [show (upS (l.dropWhile isSpaceCh)).reverse = upS (l.dropWhile isSpaceCh).reverse by
    unfold upS; rw [List.map_reverse], dropWhile_upS]
  unfold upS
  rw [List.map_reverse]

theorem upS_eq_nil (l : List Char) : upS l = [] ↔ l = [] := by
  unfold upS
  simp

theorem normalize_type_upper (s : String) :
    normalize_type (pyUpperS s) = normalize_type s := by
  unfold normalize_type pyUpperS
  by_cases hs : s = ""
  · subst hs
    rfl
  · have hdata : s.data ≠ [] := (str_ne_empty_iff s).mp hs
    have hs2 : String.mk (upS s.data) ≠ "" := by
      rw [str_ne_empty_iff]
      show upS s.data ≠ []
      rw [ne_eq, upS_eq_nil]
      exact hdata
    rw [if_neg hs, if_neg hs2]
    have hkey : stripL ((String.mk (upS s.data)).data) = upS (stripL s.data) :=
      stripL_upS s.data
    rw [hkey, upS_idem]

theorem dropWhile_twice (p : Char → Bool) (l : List Char) :
    (l.dropWhile p).dropWhile p = l.dropWhile p := by
  induction l with
  | nil => rfl
  | cons c t ih =>
    rw [List.dropWhile_cons]
    cases hp : p c with
    | true => simpa using ih
    | false =>
      simp only [Bool.false_eq_true, if_false]
      rw [List.dropWhile_cons, hp]
      simp

theorem dropWhile_head_false (p : Char → Bool) (l : List Char) (c : Char)
    (t : List Char) (h : l.dropWhile p = c :: t) : p c = false := by
  induction l with
  | nil => simp at h
  | cons d ds ih =>
    rw [List.dropWhile_cons] at h
    cases hp : p d with
    | true =>
      rw [hp] at h
      simp only [if_true] at h
      exact ih h
    | false =>
      rw [hp] at h
      simp only [Bool.false_eq_true, if_false] at h
      injection h with h1 _
      rw [← h1]
      exact hp

theorem dropTrail_twice (Y : List Char) : dropTrail (dropTrail Y) = dropTrail Y := by
  unfold dropTrail
  rw [List.reverse_reverse, dropWhile_twice]

theorem dropTrail_head (Y : List Char) (c : Char) (t : List Char)
    (h : dropTrail Y = c :: t) : ∃ t2, Y = c :: t2 := by
  unfold dropTrail at h
  have hrev : Y.reverse.dropWhile isSpaceCh = (c :: t).reverse := by
    rw [← h, List.reverse_reverse]
  have hsplit : Y.reverse = Y.reverse.takeWhile isSpaceCh ++ (c :: t).reverse := by
    rw [← hrev, List.takeWhile_append_dropWhile]
  have hy : Y = (c :: t) ++ (Y.reverse.takeWhile isSpaceCh).reverse := by
    have := congrArg List.reverse hsplit
    rw [List.reverse_reverse, List.reverse_append, List.reverse_reverse] at this
    exact this
  exact ⟨t ++ (Y.reverse.takeWhile isSpaceCh).reverse, by simpa using hy⟩

theorem stripL_stripL (l : List Char) : stripL (stripL l) = stripL l := by
  show dropTrail (dropLead (dropTrail (dropLead l))) = dropTrail (dropLead l)
  have h1 : dropLead (dropTrail (dropLead l)) = dropTrail (dropLead l) := by
    cases hd : dropTrail (dropLead l) with
    | nil => rfl
    | cons c t =>
      obtain ⟨t2, hY⟩ := dropTrail_head _ _ _ hd
      have hc : isSpaceCh c = false :=
        dropWhile_head_false isSpaceCh l c t2 hY
      exact dropWhile_self_of_head _ c t hc
  rw [h1, dropTrail_twice]

theorem stripS_clean_name (x : String) : stripS (clean_name x) = clean_name x := by
  unfold clean_name
  by_cases hx : x = ""
  · rw [if_pos hx]
    rfl
  · rw [if_neg hx]
    show String.mk (stripL (stripL (collapseWs x.data))) = _
    rw [stripL_stripL]

theorem load_csv_names (src : String) (rows : List RawRow) :
    ∀ r ∈ load_csv src rows, r.name ≠ "" ∧ stripS r.name = r.name := by
  intro r hr
  unfold load_csv at hr
  rw [List.mem_filterMap] at hr
  obtain ⟨row, -, hrow⟩ := hr
  unfold processRow at hrow
  dsimp only at hrow
  split at hrow
  · rename_i hname
    injection hrow with hr'
    subst hr'
    exact ⟨hname, stripS_clean_name row.name⟩
  · exact absurd hrow (by simp)

theorem extract_med_points_titles (ac : List Char) :
    ∀ m ∈ extract_med_points ac, m.title ≠ "" := by
  intro m hm
  unfold extract_med_points at hm
  rw [List.mem_filter] at hm
  simpa using hm.2

theorem parse_coordinates_some (lat lon : String) (la lo : Dec)
    (h1 : parseIfTruthy lat.data = some (some la))
    (h2 : parseIfTruthy lon.data = some (some lo)) :
    parse_coordinates lat lon =
      if ¬ (38 ≤ la.val ∧ la.val ≤ 42 ∧ (44 : ℚ) ≤ 52) then
        if 38 ≤ lo.val ∧ lo.val ≤ 42 ∧ 44 ≤ la.val ∧ la.val ≤ 52 then
          (some lo, some la)
        else (some la, some lo)
      else (some la, some lo) := by
  unfold parse_coordinates
  rw [h1, h2]

theorem parse_coordinates_cases (lat lon : String) :
    parse_coordinates lat lon = (none, none) ∨
    ∃ a b, parse_coordinates lat lon = (some a, some b) := by
  rcases h1 : parseIfTruthy lat.data with - | ⟨- | la⟩ <;>
    rcases h2 : parseIfTruthy lon.data with - | ⟨- | lo⟩
  · exact Or.inl (by unfold parse_coordinates; rw [h1, h2])
  · exact Or.inl (by unfold parse_coordinates; rw [h1, h2])
  · exact Or.inl (by unfold parse_coordinates; rw [h1, h2])
  · exact Or.inl (by unfold parse_coordinates; rw [h1, h2])
  · exact Or.inl (by unfold parse_coordinates; rw [h1, h2])
  · exact Or.inl (by unfold parse_coordinates; rw [h1, h2])
  · exact Or.inl (by unfold parse_coordinates; rw [h1, h2])
  · exact Or.inl (by unfold parse_coordinates; rw [h1, h2])
  · rw [parse_coordinates_some lat lon la lo h1 h2]
    split_ifs <;>
      first
      | exact Or.inr ⟨lo, la, rfl⟩
      | exact Or.inr ⟨la, lo, rfl⟩

theorem parse_coordinates_pair (lat lon : String) :
    (parse_coordinates lat lon).1 = none ↔ (parse_coordinates lat lon).2 = none := by
  rcases parse_coordinates_cases lat lon with h | ⟨a, b, h⟩ <;> rw [h] <;> simp

theorem normalize_coordinates_some (lx ly : String) (x y : Dec)
    (h1 : parseIfTruthy lx.data = some (some x))
    (h2 : parseIfTruthy ly.data = some (some y)) :
    normalize_coordinates lx ly =
      match pyIntParse ((pyStrD x.absD).take 2) with
      | some xh =>
        if 42 < xh then (String.mk (pyStrD y), String.mk (pyStrD x))
        else (String.mk (pyStrD x), String.mk (pyStrD y))
      | none => ("", "") := by
  unfold normalize_coordinates
  rw [h1, h2]

theorem normalize_coordinates_cases (lx ly : String) :
    normalize_coordinates lx ly = ("", "") ∨
    ∃ a b, normalize_coordinates lx ly =
      (String.mk (pyStrD a), String.mk (pyStrD b)) := by
  rcases h1 : parseIfTruthy lx.data with - | ⟨- | x⟩ <;>
    rcases h2 : parseIfTruthy ly.data with - | ⟨- | y⟩
  · exact Or.inl (by unfold normalize_coordinates; rw [h1, h2])
  · exact Or.inl (by unfold normalize_coordinates; rw [h1, h2])
  · exact Or.inl (by unfold normalize_coordinates; rw [h1, h2])
  · exact Or.inl (by unfold normalize_coordinates; rw [h1, h2])
  · exact Or.inl (by unfold normalize_coordinates; rw [h1, h2])
  · exact Or.inl (by unfold normalize_coordinates; rw [h1, h2])
  · exact Or.inl (by unfold normalize_coordinates; rw [h1, h2])
  · exact Or.inl (by unfold normalize_coordinates; rw [h1, h2])
  · rw [normalize_coordinates_some lx ly x y h1 h2]
    rcases pyIntParse ((pyStrD x.absD).take 2) with - | xh
    · exact Or.inl rfl
    · show (if 42 < xh then (String.mk (pyStrD y), String.mk (pyStrD x))
        else (String.mk (pyStrD x), String.mk (pyStrD y))) = ("", "") ∨
        ∃ a b, (if 42 < xh then (String.mk (pyStrD y), String.mk (pyStrD x))
          else (String.mk (pyStrD x), String.mk (pyStrD y))) =
          (String.mk (pyStrD a), String.mk (pyStrD b))
      split_ifs <;>
        first
        | exact Or.inr ⟨y, x, rfl⟩
        | exact Or.inr ⟨x, y, rfl⟩

theorem normalize_coordinates_pair (lx ly : String) :
    (normalize_coordinates lx ly).1 = "" ↔ (normalize_coordinates lx ly).2 = "" := by
  have hne : ∀ d : Dec, String.mk (pyStrD d) ≠ "" := by
    intro d
    rw [str_ne_empty_iff]
    exact pyStrD_ne_nil d
  rcases normalize_coordinates_cases lx ly with h | ⟨a, b, h⟩ <;> rw [h]
  exact ⟨fun hc => absurd hc (hne a), fun hc => absurd hc (hne b)⟩

theorem parse_coordinates_swap (lat lon : String) (la lo : Dec)
    (h1 : parseIfTruthy lat.data = some (some la))
    (h2 : parseIfTruthy lon.data = some (some lo))
    (hout : ¬ (38 ≤ la.val ∧ la.val ≤ 42))
    (hsw : 38 ≤ lo.val ∧ lo.val ≤ 42 ∧ 44 ≤ la.val ∧ la.val ≤ 52) :
    parse_coordinates lat lon = (some lo, some la) := by
  rw [parse_coordinates_some lat lon la lo h1 h2,
    if_pos (fun hx => hout ⟨hx.1, hx.2.1⟩), if_pos hsw]
theorem tm_val_mem : ∀ p ∈ TYPE_MAPPING,
    p.2 ∈ (["PHARMACY", "CLINIC", "DENTAL", "OPTICS"] : List String) := by decide

theorem normalize_type_mem (raw : String) :
    normalize_type raw ∈
      (["PHARMACY", "CLINIC", "DENTAL", "OPTICS", "UNKNOWN", "OTHER"] :
        List String) := by
  unfold normalize_type
  by_cases hr : raw = ""
  · rw [if_pos hr]
    decide
  · rw [if_neg hr]
    dsimp only
    rcases h1 : List.lookup (String.mk (upS (stripL raw.data))) TYPE_MAPPING with - | v
    · rcases h2 : List.lookup
          (String.mk (lowS (upS (stripL raw.data)))) TYPE_MAPPING with - | w
      · decide
      · have hm := tm_val_mem _ (lookup_mem _ _ _ h2)
        fin_cases hm <;> decide
    · have hm := tm_val_mem _ (lookup_mem _ _ _ h1)
      fin_cases hm <;>
        first
        | exact (by decide : ("PHARMACY" : String) ∈
            (["PHARMACY", "CLINIC", "DENTAL", "OPTICS", "UNKNOWN", "OTHER"] : List String))
        | exact (by decide : ("CLINIC" : String) ∈
            (["PHARMACY", "CLINIC", "DENTAL", "OPTICS", "UNKNOWN", "OTHER"] : List String))
        | exact (by decide : ("DENTAL" : String) ∈
            (["PHARMACY", "CLINIC", "DENTAL", "OPTICS", "UNKNOWN", "OTHER"] : List String))
        | exact (by decide : ("OPTICS" : String) ∈
            (["PHARMACY", "CLINIC", "DENTAL", "OPTICS", "UNKNOWN", "OTHER"] : List String))

theorem normalize_type_other (raw : String) (hr : raw ≠ "")
    (h1 : List.lookup (String.mk (upS (stripL raw.data))) TYPE_MAPPING = none)
    (h2 : List.lookup
      (String.mk (lowS (upS (stripL raw.data)))) TYPE_MAPPING = none) :
    normalize_type raw = "OTHER" := by
  unfold normalize_type
  rw [if_neg hr]
  dsimp only
  rw [h1, h2]

theorem dedup_pair (r s : Rec) :
    deduplicate_records [r, s] =
      if dedupKey s = dedupKey r then ([r], 1) else ([r, s], 0) := by
  by_cases h : dedupKey s = dedupKey r <;>
    simp [deduplicate_records, dedupGo, h]

theorem latKeyOf_zero (d : Dec) (hd : d.m = 0) : latKeyOf (some d) = none := by
  simp [latKeyOf, hd]

theorem latKeyOf_round (d : Dec) (hd : d.m ≠ 0) :
    latKeyOf (some d) = some (Dec.round4 d) := by
  simp [latKeyOf, hd]
/-- Counterexample to claim C1 at a concrete input: both raw values
parse as floats, `1.0` is far outside the latitude band `[38, 42]` (and
`2.0` outside the longitude band `[44, 52]`), yet `parse_coordinates`
emits the pair unchanged instead of dropping it — the source's bounds
test compares the constants `44.0 <= 52.0` instead of the longitude, so
an in-order out-of-bounds pair is never dropped. -/
theorem C1_counterexample :
    parse_coordinates "1.0" "2.0" = (some ⟨1, 0⟩, some ⟨2, 0⟩) ∧
    ¬ ((38 : ℚ) ≤ (Dec.mk 1 0).val) ∧ ¬ ((44 : ℚ) ≤ (Dec.mk 2 0).val) := by
  refine ⟨?_, by norm_num [Dec.val], by norm_num [Dec.val]⟩
  rw [parse_coordinates_some "1.0" "2.0" ⟨1, 0⟩ ⟨2, 0⟩ (by decide) (by decide),
    if_pos (by norm_num [Dec.val]), if_neg (by norm_num [Dec.val])]

/-- Claim C1 (corrected): a parsed coordinate pair is never emitted
half-populated — in `combine.parse_coordinates` the two outputs are
`none` together, and in `a_group.normalize_coordinates` they are `""`
together — and whenever the swap branch of `parse_coordinates` fires,
its output `(lo, la)` satisfies the bounding box (latitude in `[38, 42]`,
longitude in `[44, 52]`); but a pair that fails the bounds is emitted
unchanged, not dropped. -/
theorem C1_coordinate_integrity (lat lon lx ly : String) :
    ((parse_coordinates lat lon).1 = none ↔ (parse_coordinates lat lon).2 = none) ∧
    ((normalize_coordinates lx ly).1 = "" ↔ (normalize_coordinates lx ly).2 = "") ∧
    (∀ la lo : Dec,
      parseIfTruthy lat.data = some (some la) →
      parseIfTruthy lon.data = some (some lo) →
      ¬ (38 ≤ la.val ∧ la.val ≤ 42) →
      38 ≤ lo.val ∧ lo.val ≤ 42 ∧ 44 ≤ la.val ∧ la.val ≤ 52 →
      parse_coordinates lat lon = (some lo, some la) ∧
        38 ≤ lo.val ∧ lo.val ≤ 42 ∧ 44 ≤ la.val ∧ la.val ≤ 52) :=
  ⟨parse_coordinates_pair lat lon, normalize_coordinates_pair lx ly,
    fun la lo h1 h2 h3 h4 =>
      ⟨parse_coordinates_swap lat lon la lo h1 h2 h3 h4, h4⟩⟩

theorem C1_coordinate_integrity_witness :
    ((parse_coordinates "49.86" "40.38").1 = none ↔
      (parse_coordinates "49.86" "40.38").2 = none) ∧
    parse_coordinates "49.86" "40.38" = (some ⟨4038, 2⟩, some ⟨4986, 2⟩) := by
  have h := C1_coordinate_integrity "49.86" "40.38" "" ""
  exact ⟨h.1, (h.2.2 ⟨4986, 2⟩ ⟨4038, 2⟩ (by decide) (by decide)
    (by norm_num [Dec.val]) (by norm_num [Dec.val])).1⟩

/-- Counterexample to claim C2 at a concrete input: two records with the
same name, no coordinates and different addresses have different values
of the key the specification describes (name plus trimmed address when
coordinates are absent), yet `deduplicate_records` treats them as the
same provider — the source's key never involves the address. -/
theorem C2_counterexample :
    specIdentityKey (⟨"Aptek", "", "X küç. 1", "", none, none, "", "", ""⟩ : Rec) ≠
      specIdentityKey (⟨"Aptek", "", "Y pr. 2", "", none, none, "", "", ""⟩ : Rec) ∧
    deduplicate_records
      [(⟨"Aptek", "", "X küç. 1", "", none, none, "", "", ""⟩ : Rec),
       (⟨"Aptek", "", "Y pr. 2", "", none, none, "", "", ""⟩ : Rec)] =
      ([(⟨"Aptek", "", "X küç. 1", "", none, none, "", "", ""⟩ : Rec)], 1) := by
  constructor
  · decide
  · decide

/-- Claim C2 (corrected): the deduplication key of
`combine.deduplicate_records` is the case-folded, trimmed name together
with the coordinates rounded to 4 decimal places when they are present
(a coordinate equal to `0.0` counting as absent, since `round(lat, 4) if
lat` tests truthiness); the address is never part of the key, so two
records agreeing on name and rounded coordinates are treated as the same
provider regardless of every other field — including the address, which
the specification claims is compared when coordinates are absent. -/
theorem C2_identity_key (r s : Rec) :
    deduplicate_records [r, s] =
      (if dedupKey s = dedupKey r then ([r], 1) else ([r, s], 0)) ∧
    dedupKey r =
      (String.mk (stripL (lowS r.name.data)), latKeyOf r.latitude,
        latKeyOf r.longitude) ∧
    (∀ d : Dec, d.m = 0 → latKeyOf (some d) = none) ∧
    (∀ d : Dec, d.m ≠ 0 → latKeyOf (some d) = some (Dec.round4 d)) :=
  ⟨dedup_pair r s, rfl, fun d hd => latKeyOf_zero d hd,
    fun d hd => latKeyOf_round d hd⟩

theorem C2_identity_key_witness :
    deduplicate_records
      [(⟨"Klinika", "", "", "", some ⟨401234567, 7⟩, some ⟨491234567, 7⟩, "", "", "a"⟩ : Rec),
       (⟨" klinika ", "", "", "", some ⟨401234512, 7⟩, some ⟨491234598, 7⟩, "", "", "b"⟩ : Rec)] =
      ([(⟨"Klinika", "", "", "", some ⟨401234567, 7⟩, some ⟨491234567, 7⟩, "", "", "a"⟩ : Rec)], 1) ∧
    latKeyOf (some ⟨0, 1⟩) = none := by
  have h := C2_identity_key
    (⟨"Klinika", "", "", "", some ⟨401234567, 7⟩, some ⟨491234567, 7⟩, "", "", "a"⟩ : Rec)
    (⟨" klinika ", "", "", "", some ⟨401234512, 7⟩, some ⟨491234598, 7⟩, "", "", "b"⟩ : Rec)
  refine ⟨?_, (C2_identity_key
    (⟨"Klinika", "", "", "", some ⟨401234567, 7⟩, some ⟨491234567, 7⟩, "", "", "a"⟩ : Rec)
    (⟨" klinika ", "", "", "", some ⟨401234512, 7⟩, some ⟨491234598, 7⟩, "", "", "b"⟩ : Rec)).2.2.1
      ⟨0, 1⟩ rfl⟩
  rw [h.1, if_pos (by decide)]
/-- Counterexample to claim C3 at a concrete input: `4.9` parses as a
float whose first two significant digits `49` exceed `42`, but
`a_group.normalize_coordinates` does not swap — it takes the first two
characters `"4."` of `str(abs(x))`, whose `int()` conversion raises, so
the error branch returns `("", "")` instead of the swapped pair. -/
theorem C3_counterexample :
    pyFloatParse "4.9".data = some ⟨49, 1⟩ ∧
    natDigs (Dec.mk 49 1).m.natAbs = ['4', '9'] ∧
    42 < digitsVal (natDigs (Dec.mk 49 1).m.natAbs) ∧
    normalize_coordinates "4.9" "40.0" = ("", "") ∧
    normalize_coordinates "4.9" "40.0" ≠ ("40.0", "4.9") := by decide

/-- Claim C3 (corrected): in `a_group.normalize_coordinates`, when both
values parse as floats and the presumed latitude has at least two digits
before the decimal point (`10 ≤ intPartN x`), the swap fires exactly as
the specification says: if the number formed by the first two digits
exceeds 42 the pair is output swapped; for `|x| < 10` the source instead
falls into its error branch (claim C10), so "first two significant
digits" only matches the code for `|x| ≥ 10`. -/
theorem C3_swap_heuristic (lx ly : String) (x y : Dec)
    (hx : lx.data ≠ []) (hy : ly.data ≠ [])
    (hpx : pyFloatParse lx.data = some x) (hpy : pyFloatParse ly.data = some y)
    (hbig : 10 ≤ intPartN x) (hgt : 42 < specFirstTwo (intPartN x)) :
    normalize_coordinates lx ly = (String.mk (pyStrD y), String.mk (pyStrD x)) := by
  rw [normalize_coordinates_eq lx ly x y hx hy hpx hpy, prefix_two_int_some x hbig]
  show (if (42 : Int) < ((specFirstTwo (intPartN x) : Nat) : Int) then
      (String.mk (pyStrD y), String.mk (pyStrD x))
    else (String.mk (pyStrD x), String.mk (pyStrD y))) =
    (String.mk (pyStrD y), String.mk (pyStrD x))
  rw [if_pos (by exact_mod_cast hgt)]

theorem C3_swap_heuristic_witness :
    normalize_coordinates "49.86" "40.38" = ("40.38", "49.86") := by
  have h := C3_swap_heuristic "49.86" "40.38" ⟨4986, 2⟩ ⟨4038, 2⟩ (by decide) (by decide)
    (by decide) (by decide) (by decide)
    (by rw [← digsSpec_take_two (intPartN ⟨4986, 2⟩) (by decide), ← natDigs_eq_digsSpec]
        decide)
  rw [h]
  decide

/-- Claim C4 (confirmed): `combine.deduplicate_records` keeps, for each
group of records sharing a deduplication key, exactly the first
occurrence in input order, unchanged (it equals the first-occurrence-wins
function the specification describes); the survivors form a sublist of
the input, so relative input order is preserved, and the removed count is
the number of dropped records.  The result is a function of the input
list, hence deterministic for a fixed input ordering. -/
theorem C4_first_occurrence (recs : List Rec) :
    (deduplicate_records recs).1 = specFirstOccurrenceWins recs ∧
    List.Sublist (deduplicate_records recs).1 recs ∧
    (deduplicate_records recs).2 = recs.length - (deduplicate_records recs).1.length :=
  ⟨deduplicate_fst_eq_specFW recs, dedupGo_sublist recs [], dedupGo_count recs []⟩

/-- Claim C5 (confirmed): deduplication is idempotent — applying
`combine.deduplicate_records` to the unique-records component of its own
output returns that same list with a removed count of zero. -/
theorem C5_idempotent (recs : List Rec) :
    deduplicate_records (deduplicate_records recs).1 =
      ((deduplicate_records recs).1, 0) := by
  have h := dedupGo_keys recs []
  show dedupGo [] (dedupGo [] recs).1 = ((dedupGo [] recs).1, 0)
  exact dedupGo_of_nodup _ [] h.2 (fun r _ hmem => absurd hmem (List.not_mem_nil _))
/-- Claim C6 (confirmed): `combine.normalize_type` always returns a
member of the closed set \x7bPHARMACY, CLINIC, DENTAL, OPTICS, UNKNOWN,
OTHER\x7d — a raw label never leaks through verbatim; the lookup is
case-insensitive (upper-casing the input does not change the result); an
empty token maps to UNKNOWN; a non-empty token found in neither the
exact-case nor the lower-cased synonym table maps to OTHER; and the
synonym table sends DENTAL_CLINIC to DENTAL, OPTIC to OPTICS,
ONLINE_PHARMACY to PHARMACY and MEDICAL_SERVICE to CLINIC. -/
theorem C6_type_enum (raw : String) :
    normalize_type raw ∈
      (["PHARMACY", "CLINIC", "DENTAL", "OPTICS", "UNKNOWN", "OTHER"] : List String) ∧
    normalize_type (pyUpperS raw) = normalize_type raw ∧
    (raw ≠ "" →
      List.lookup (String.mk (upS (stripL raw.data))) TYPE_MAPPING = none →
      List.lookup (String.mk (lowS (upS (stripL raw.data)))) TYPE_MAPPING = none →
      normalize_type raw = "OTHER") ∧
    normalize_type "" = "UNKNOWN" ∧
    normalize_type "DENTAL_CLINIC" = "DENTAL" ∧
    normalize_type "OPTIC" = "OPTICS" ∧
    normalize_type "ONLINE_PHARMACY" = "PHARMACY" ∧
    normalize_type "MEDICAL_SERVICE" = "CLINIC" ∧
    normalize_type " pharmacy " = "PHARMACY" :=
  ⟨normalize_type_mem raw, normalize_type_upper raw,
    fun hr h1 h2 => normalize_type_other raw hr h1 h2,
    by decide, by decide, by decide, by decide, by decide, by decide⟩

theorem C6_type_enum_witness :
    normalize_type "Zebra" ∈
      (["PHARMACY", "CLINIC", "DENTAL", "OPTICS", "UNKNOWN", "OTHER"] : List String) ∧
    normalize_type "Zebra" = "OTHER" := by
  have h := C6_type_enum "Zebra"
  exact ⟨h.1, h.2.2.1 (by decide) (by decide) (by decide)⟩
/-- Counterexample to claim C7 at a concrete input: with no city hint and
an empty address, `combine.detect_city` returns `"Unknown"`, not the
capital default the specification's priority list implies — the default
branch only applies to non-empty addresses. -/
theorem C7_counterexample :
    detect_city "" "" = "Unknown" ∧ ("Unknown" : String) ≠ "Bakı" := by decide

/-- Claim C7 (corrected): `combine.detect_city` follows the claimed
priority — a city hint that is non-blank after trimming wins; a
capital-district substring match in the upper-cased address yields
"Bakı"; otherwise the first gazetteer (`REGIONS`) match yields that
region's city; otherwise, when the address mentions "ŞƏH", a match of the
`<word> şəh` pattern yields that word (unless it upper-cases to "BAKI");
otherwise "Bakı" is the default — except that an empty address with no
usable hint yields "Unknown", not the capital.  `detect_region_category`
returns "Bakı" exactly when the city is in the capital-area set
(Bakı/Baku/Baki, Absheron, Xırdalan), else "Region". -/
theorem C7_city_priority (a ch : String) :
    (stripS ch ≠ "" → detect_city a ch = stripS ch) ∧
    (stripS ch = "" → a = "" → detect_city a ch = "Unknown") ∧
    (stripS ch = "" → a ≠ "" →
      BAKU_DISTRICTS.any (fun d => hasSub (upS a.data) (upS d.data)) = true →
      detect_city a ch = "Bakı") ∧
    (∀ v, stripS ch = "" → a ≠ "" →
      BAKU_DISTRICTS.any (fun d => hasSub (upS a.data) (upS d.data)) = false →
      regFind REGIONS (upS a.data) = some v →
      detect_city a ch = v) ∧
    (∀ w, stripS ch = "" → a ≠ "" →
      BAKU_DISTRICTS.any (fun d => hasSub (upS a.data) (upS d.data)) = false →
      regFind REGIONS (upS a.data) = none →
      shehSearch a.data = some w →
      ¬ String.mk (upS (stripL w)) ∈ (["BAKI", "BAKI"] : List String) →
      detect_city a ch = String.mk (stripL w)) ∧
    (stripS ch = "" → a ≠ "" →
      BAKU_DISTRICTS.any (fun d => hasSub (upS a.data) (upS d.data)) = false →
      regFind REGIONS (upS a.data) = none →
      shehSearch a.data = none →
      detect_city a ch = "Bakı") ∧
    (detect_region_category (detect_city a ch) = "Bakı" ↔
      detect_city a ch ∈ (["Bakı", "Baku", "Baki", "Absheron", "Xırdalan"] : List String)) :=
  ⟨fun hh => detect_city_hint a ch hh,
    fun hh ha => by rw [ha]; exact detect_city_empty_address ch hh,
    fun hh ha hd => detect_city_district a ch hh ha hd,
    fun v hh ha hd hr => detect_city_region a ch hh ha hd v hr,
    fun w hh ha hd hr hs hb => detect_city_sheh a ch hh ha hd hr w hs hb,
    fun hh ha hd hr hs => detect_city_default a ch hh ha hd hr hs,
    detect_region_category_iff (detect_city a ch)⟩

theorem C7_city_priority_witness :
    detect_city "Gəncə şəhəri, Atatürk prospekti 123" "" = "Gəncə" ∧
    detect_city "İsmayıllı şəhəri 7" "" = "İsmayıllı" ∧
    detect_region_category "Gəncə" = "Region" := by
  have h := C7_city_priority "Gəncə şəhəri, Atatürk prospekti 123" ""
  have h2 := C7_city_priority "İsmayıllı şəhəri 7" ""
  refine ⟨h.2.2.2.1 "Gəncə" rfl (by decide) (by decide) (by decide), ?_, by decide⟩
  rw [h2.2.2.2.2.1 "İsmayıllı".data rfl (by decide) (by decide) (by decide)
    (by decide) (by decide)]
  decide
/-- Claim C8 (confirmed): every record emitted by `combine.load_csv` has
a non-empty name that is already stripped (its cleaning collapses
whitespace and trims, and rows whose cleaned name is empty are skipped),
and every point kept by `meqa_sigorta.extract_med_points` has a
non-empty title (records failing the `record.get('title')` guard are
dropped). -/
theorem C8_nonempty_names (source : String) (rows : List RawRow) (ac : List Char) :
    (∀ r ∈ load_csv source rows, r.name ≠ "" ∧ stripS r.name = r.name) ∧
    (∀ m ∈ extract_med_points ac, m.title ≠ "") :=
  ⟨load_csv_names source rows, extract_med_points_titles ac⟩

theorem C8_nonempty_names_witness :
    ((⟨"Aptek 1", "PHARMACY", "", "", none, none, "Unknown", "Region", "s"⟩ : Rec).name ≠ "" ∧
      stripS (⟨"Aptek 1", "PHARMACY", "", "", none, none, "Unknown", "Region", "s"⟩ : Rec).name =
        (⟨"Aptek 1", "PHARMACY", "", "", none, none, "Unknown", "Region", "s"⟩ : Rec).name) ∧
    (⟨"A", "", "", "", "", "", "", "", ""⟩ : MedRec).title ≠ "" := by
  have h := C8_nonempty_names "s"
    [⟨"  Aptek   1 ", "pharmacy", "", "", "", "", ""⟩]
    ("\x7btitle: \"A\"\x7d".data)
  exact ⟨h.1 _ (by decide), h.2 _ (by decide)⟩
/-- Claim C9 (confirmed): writing a combined record collection with
`combine.save_combined_csv` (header row `name, type, address, phone,
latitude, longitude, city, region_category, source`; absent coordinates
serialized as the empty field, present ones as Python `str(float)` text)
and re-reading the produced CSV text reproduces exactly the same record
list, for every collection whose coordinates are in canonical decimal
form (as all parsed floats are). -/
theorem C9_roundtrip (recs : List Rec) (hn : ∀ r ∈ recs, recNorm r = true) :
    read_combined_csv (save_combined_csv recs) = some recs :=
  read_save_round recs hn

theorem C9_roundtrip_witness :
    read_combined_csv (save_combined_csv
      [⟨"Aptek \"Mərkəz\", filial 2", "PHARMACY", "Bakı, 28 May küç.", "+994 12",
        some ⟨403812, 4⟩, none, "Bakı", "Bakı", "a_group"⟩,
       ⟨"B", "OTHER", "", "", none, some ⟨-7, 0⟩, "Gəncə", "Region", "aiic"⟩]) =
      some
      [⟨"Aptek \"Mərkəz\", filial 2", "PHARMACY", "Bakı, 28 May küç.", "+994 12",
        some ⟨403812, 4⟩, none, "Bakı", "Bakı", "a_group"⟩,
       ⟨"B", "OTHER", "", "", none, some ⟨-7, 0⟩, "Gəncə", "Region", "aiic"⟩] :=
  C9_roundtrip
    [⟨"Aptek \"Mərkəz\", filial 2", "PHARMACY", "Bakı, 28 May küç.", "+994 12",
      some ⟨403812, 4⟩, none, "Bakı", "Bakı", "a_group"⟩,
     ⟨"B", "OTHER", "", "", none, some ⟨-7, 0⟩, "Gəncə", "Region", "aiic"⟩]
    (by decide)

/-- Claim C10 (confirmed): in `a_group.normalize_coordinates`, whenever
both raw values parse as floats but the presumed latitude has absolute
value below 10 (a single digit before the decimal point), the first two
characters of `str(abs(x))` are `"d."`, their `int()` conversion raises,
and the error branch returns `("", "")` — both coordinates are emptied
even though both inputs were valid numbers. -/
theorem C10_small_latitude (lx ly : String) (x y : Dec)
    (hx : lx.data ≠ []) (hy : ly.data ≠ [])
    (hpx : pyFloatParse lx.data = some x) (hpy : pyFloatParse ly.data = some y)
    (hsmall : |x.val| < 10) :
    normalize_coordinates lx ly = ("", "") := by
  rw [normalize_coordinates_eq lx ly x y hx hy hpx hpy,
    prefix_two_int_none x ((intPartN_lt_ten_iff x).mpr hsmall)]

theorem C10_small_latitude_witness :
    normalize_coordinates "9.86" "40.38" = ("", "") :=
  C10_small_latitude "9.86" "40.38" ⟨986, 2⟩ ⟨4038, 2⟩ (by decide) (by decide)
    (by decide) (by decide) ((intPartN_lt_ten_iff ⟨986, 2⟩).mp (by decide))
